import Mathlib

/-!
Verification of the YINI parser/serializer (`src/include/yini.hpp`).

This file gives a shallow embedding of the library in Lean 4 and proves
properties of that embedding.  Strings are modelled as `List Char`
(`Str`), `std::variant`-based values as the inductive `Value`, and the
section tree as the nested inductive `Sect`.  C++ `int` is modelled as
`Int` together with explicit 32-bit range checks where `std::stoi`
performs them; `double` is modelled as `Rat`, with `std::to_string`'s
fixed six-decimal-digit rendering modelled by `realToStr` (rounding to
nearest, which agrees with the printf "%f" rendering on all values that
are exactly representable with six fractional digits — the only values
any theorem below touches).  Functions that recurse on non-structural
measures are written with an explicit fuel argument (always called with
provably sufficient fuel) so that they reduce definitionally.
-/

namespace Yini

/-- Characters of a C++ `std::string`, in order. -/
abbrev Str := List Char

/-- Convert a Lean string literal to the `Str` model. -/
def toStr (s : String) : Str := s.data

/-- The whitespace set `" \t\r\n"` used by `Parser::trim`. -/
def isWs (c : Char) : Bool := c = ' ' || c = '\t' || c = '\r' || c = '\n'

/-- Model of `Parser::trim`: drop characters of `" \t\r\n"` from both ends
(`find_first_not_of` / `find_last_not_of` / `substr`). -/
def trim (s : Str) : Str := ((s.dropWhile isWs).reverse.dropWhile isWs).reverse

/-- Model of `std::string::find(pat, 0)` followed by the corresponding split:
`breakOn pat l = some (a, b)` iff `l = a ++ pat ++ b` and `pat` occurs
nowhere earlier; `none` (C++ `npos`) if `pat` does not occur.  Only used
with non-empty `pat`. -/
def breakOn (pat : Str) : Str → Option (Str × Str)
  | [] => if pat = [] then some ([], []) else none
  | c :: tl =>
    if pat.isPrefixOf (c :: tl) then some ([], (c :: tl).drop pat.length)
    else (breakOn pat tl).map (fun p => (c :: p.1, p.2))

/-- Whether the two-character pattern `[c1, c2]` occurs (at consecutive
positions) in `l`. -/
def has2 (c1 c2 : Char) : Str → Bool
  | x :: y :: rest => (x = c1 && y = c2) || has2 c1 c2 (y :: rest)
  | _ => false

/-- Fueled model of `Parser::remove_multiline_comments`: repeatedly find
`/​*`, find the following `*​/`, and erase the span including both markers;
if the close marker is missing, truncate at the open marker.  The C++
loop resumes searching at the erase position, i.e. only in the text that
followed the close marker, which the recursion mirrors. -/
def removeMLF : Nat → Str → Str
  | 0, l => l
  | fuel + 1, l =>
    match breakOn (toStr "/*") l with
    | none => l
    | some (pre, rest) =>
      match breakOn (toStr "*/") rest with
      | none => pre
      | some (_, after) => pre ++ removeMLF fuel after

/-- Model of `Parser::remove_multiline_comments` (with sufficient fuel). -/
def remove_multiline_comments (l : Str) : Str := removeMLF (l.length + 1) l

/-- Model of `Parser::remove_line_comments`: truncate at the first `//`. -/
def remove_line_comments (l : Str) : Str :=
  match breakOn (toStr "//") l with
  | none => l
  | some (pre, _) => pre

/-- Model of `Parser::count_carets`: length of the leading run of `^`. -/
def count_carets (l : Str) : Nat := (l.takeWhile (· = '^')).length

/-- Split a character list at every occurrence of `c` (keeping empty
segments, like repeated `std::getline` except for the trailing-segment
convention handled by `getlinesBy`). -/
def splitCh (c : Char) : Str → List Str
  | [] => [[]]
  | a :: tl =>
    if a = c then [] :: splitCh c tl
    else
      match splitCh c tl with
      | [] => [[a]]
      | h :: t => (a :: h) :: t

/-- Model of the `while (std::getline(stream, item, c))` loop: on empty
input it yields no items, and a trailing separator does not produce a
trailing empty item. -/
def getlinesBy (c : Char) (l : Str) : List Str :=
  if l = [] then []
  else
    let p := splitCh c l
    if p.getLast? = some [] then p.dropLast else p

/-- Model of `::tolower` on the ASCII range (the only characters the
library is used with).  Characters are compared numerically, as in C. -/
def lowerC (c : Char) : Char :=
  if 65 ≤ c.toNat ∧ c.toNat ≤ 90 then Char.ofNat (c.toNat + 32) else c

/-- Lower-case an entire string, as `std::transform(..., ::tolower)`. -/
def lowerStr (s : Str) : Str := s.map lowerC

/-- Decimal digit test (`'0' ≤ c && c ≤ '9'`, numerically) used when
modelling `strtol`/`strtod`. -/
def isDig (c : Char) : Bool := 48 ≤ c.toNat && c.toNat ≤ 57

/-- The whitespace set of C `isspace` (default locale), skipped by
`strtol`/`strtod` before the number. -/
def isCppSpace (c : Char) : Bool :=
  c = ' ' || c = '\t' || c = '\n' || c = Char.ofNat 11 || c = Char.ofNat 12 || c = '\r'

/-- Numeric value of a digit string (most significant digit first). -/
def digitsVal (l : Str) : Nat := l.foldl (fun a c => 10 * a + (c.toNat - 48)) 0

/-- Fueled decimal rendering of a natural number, as `std::to_string`. -/
def natToStrF : Nat → Nat → Str
  | 0, _ => []
  | fuel + 1, n =>
    if n < 10 then [Char.ofNat (48 + n)]
    else natToStrF fuel (n / 10) ++ [Char.ofNat (48 + n % 10)]

/-- Decimal rendering of a natural number (with sufficient fuel). -/
def natToStr (n : Nat) : Str := natToStrF (n + 1) n

/-- Model of `std::to_string(int)`. -/
def intToStr (n : Int) : Str :=
  if n < 0 then '-' :: natToStr (-n).toNat else natToStr n.toNat

/-- Consume the optional sign of a `strtol`/`strtod` literal, returning
whether it was `-` and the remainder. -/
def signSplit (s : Str) : Bool × Str :=
  match s with
  | '-' :: r => (true, r)
  | '+' :: r => (false, r)
  | r => (false, r)

/-- Model of `std::stoi` (base 10): skip C whitespace, read an optional
sign and a non-empty digit run, ignore everything after it, and fail
(`std::invalid_argument` / `std::out_of_range`, both caught by the
caller) when there is no digit or the value does not fit in a 32-bit
`int`. -/
def stoiM (s : Str) : Option Int :=
  let sign := signSplit (s.dropWhile isCppSpace)
  let ds := sign.2.takeWhile isDig
  if ds = [] then none
  else
    let v : Int := (if sign.1 then -1 else 1) * (digitsVal ds : Int)
    if -(2 ^ 31) ≤ v ∧ v < 2 ^ 31 then some v else none

/-- The fraction part of a `strtod` literal: the digits after a leading
`.`, together with the remainder.  `stodM` below combines the pieces;
the hexadecimal, `inf` and `nan` forms accepted by `strtod` are not
modelled, and no theorem below applies `stodM` to such inputs. -/
def fracSplit (r1 : Str) : Str × Str :=
  match r1 with
  | '.' :: r => (r.takeWhile isDig, r.drop (r.takeWhile isDig).length)
  | _ => ([], r1)

/-- The optional exponent of a `strtod` literal: consumed only when at
least one digit follows the `e`/`E` and its optional sign. -/
def expVal (r2s : Str) : Int :=
  match r2s with
  | 'e' :: r2 | 'E' :: r2 =>
    let es := signSplit r2
    if es.2.takeWhile isDig = [] then 0
    else (if es.1 then -1 else 1) * (digitsVal (es.2.takeWhile isDig) : Int)
  | _ => 0

/-- The digit-reading part of `strtod`, after whitespace and sign: an
integer part, an optional `.` and fraction part (at least one digit in
total required), and an optional exponent; trailing characters are
ignored. -/
def stodCore (sg : Bool × Str) : Option Rat :=
  let ip := sg.2.takeWhile isDig
  let fpr := fracSplit (sg.2.drop ip.length)
  if ip = [] ∧ fpr.1 = [] then none
  else
    some ((if sg.1 then -1 else 1) *
      ((digitsVal ip : Rat) + (digitsVal fpr.1 : Rat) / ((10 : Rat) ^ fpr.1.length)) *
      (10 : Rat) ^ expVal fpr.2)

def stodM (s : Str) : Option Rat := stodCore (signSplit (s.dropWhile isCppSpace))

/-- Left-pad a digit string with `0` to the given width. -/
def padZeros (k : Nat) (ds : Str) : Str := List.replicate (k - ds.length) '0' ++ ds

/-- Model of `std::to_string(double)`: printf `"%f"` rendering with six
fractional digits, i.e. the decimal closest to the value with six digits
after the point (all values used in theorems are exactly representable,
so the choice of tie-breaking is irrelevant). -/
def realToStr (q : Rat) : Str :=
  let n : Int := round (q * 1000000)
  (if n < 0 then ['-'] else []) ++
    natToStr (n.natAbs / 1000000) ++ '.' :: padZeros 6 (natToStr (n.natAbs % 1000000))

/-- Model of `yini::Value`, the closed tagged union
`std::variant<std::string, int, double, bool, std::vector<Value>>`. -/
inductive Value where
  | str (s : Str)
  | int (n : Int)
  | real (q : Rat)
  | bool (b : Bool)
  | arr (xs : List Value)

/-- Model of `Value::as_string`: strings verbatim, numbers via
`std::to_string`, booleans as `true`/`false`; an array throws
(`none`). -/
def as_string : Value → Option Str
  | .str s => some s
  | .int n => some (intToStr n)
  | .real q => some (realToStr q)
  | .bool b => some (if b then toStr "true" else toStr "false")
  | .arr _ => none

/-- Model of `Value::as_bool`: a stored boolean verbatim; a string is
lower-cased and compared with `true`/`yes`/`on`/`1` (anything else,
including `false`, `no`, `off` and unrecognised text, yields `false`
without an error); an `int` is truthy iff nonzero; a `double` or array
throws (`none`). -/
def as_bool : Value → Option Bool
  | .bool b => some b
  | .str s =>
    let l := lowerStr s
    some (decide (l = toStr "true" ∨ l = toStr "yes" ∨ l = toStr "on" ∨ l = toStr "1"))
  | .int n => some (decide (n ≠ 0))
  | _ => none

/-- Fueled model of `Parser::parse_value`.  The argument is trimmed; a
matching pair of quotes yields the enclosed text; `[` … `]` yields an
array whose content is split with `std::getline(ss, item, ',')` — i.e.
at every comma — each non-empty trimmed item being parsed recursively;
then the case-insensitive boolean keywords; then `std::stod` (when the
literal contains `.`) or `std::stoi`; on numeric failure the trimmed
literal itself.  For an empty trimmed argument the C++ code reads
`front()`/`back()` of an empty `std::string` (undefined behaviour); this
function returns what that code does in practice (the checks fail and
the literal falls through to `.str []`), and `parse_valueQ` below marks
such calls. -/
def parse_valueF : Nat → Str → Value
  | 0, _ => .str []
  | fuel + 1, s =>
    let t := trim s
    if (t.head? = some '\'' ∧ t.getLast? = some '\'') ∨
        (t.head? = some '"' ∧ t.getLast? = some '"') then
      .str ((t.drop 1).dropLast)
    else if t.head? = some '[' ∧ t.getLast? = some ']' then
      let elems := ((getlinesBy ',' ((t.drop 1).dropLast)).map trim).filter (· ≠ [])
      .arr (elems.map (parse_valueF fuel))
    else
      let lower := lowerStr t
      if lower = toStr "true" ∨ lower = toStr "yes" ∨ lower = toStr "on" then .bool true
      else if lower = toStr "false" ∨ lower = toStr "no" ∨ lower = toStr "off" then .bool false
      else if '.' ∈ t then
        match stodM t with
        | some q => .real q
        | none => .str t
      else
        match stoiM t with
        | some n => .int n
        | none => .str t

/-- Model of `Parser::parse_value` (with sufficient fuel). -/
def parse_value (s : Str) : Value := parse_valueF (s.length + 1) s

/-- `Parser::parse_value` guarded by the implicit precondition its body
relies on: with an empty trimmed argument the C++ `front()` call is an
out-of-bounds access on an empty string (undefined behaviour), which
this model surfaces as `none`. -/
def parse_valueQ (s : Str) : Option Value :=
  if trim s = [] then none else some (parse_value s)

/-- Model of `yini::Section`: an association list of properties and one
of child sections, in insertion order (the iteration order of the C++
`unordered_map` is abstracted as insertion order). -/
inductive Sect where
  | mk (vals : List (Str × Value)) (subs : List (Str × Sect))

/-- Properties of a section. -/
def Sect.vals : Sect → List (Str × Value)
  | .mk v _ => v

/-- Child sections of a section. -/
def Sect.subs : Sect → List (Str × Sect)
  | .mk _ s => s

/-- A freshly constructed (empty) section. -/
def Sect.empty : Sect := .mk [] []

/-- Model of `Section::clear`. -/
def Sect.clearS : Sect → Sect := fun _ => .mk [] []

/-- First-match lookup in an association list (the C++ maps have unique
keys, so first-match agrees with map lookup). -/
def lookupA : List (Str × α) → Str → Option α
  | [], _ => none
  | (k', a) :: tl, k => if k' = k then some a else lookupA tl k

/-- Update the first entry with the given key through `f` (which receives
`some` of the old value), or append a new entry `(k, f none)`. -/
def updA : List (Str × α) → Str → (Option α → α) → List (Str × α)
  | [], k, f => [(k, f none)]
  | (k', a) :: tl, k, f => if k' = k then (k', f (some a)) :: tl else (k', a) :: updA tl k f

/-- Model of `(*section)[key] = value`: overwrite, or insert at the end. -/
def Sect.setValue (s : Sect) (k : Str) (v : Value) : Sect :=
  .mk (updA s.vals k (fun _ => v)) s.subs

/-- Model of `section.section(name)` auto-vivification followed by a
mutation of the child: the named child (created empty when absent) is
replaced by `f` of itself. -/
def Sect.updSub (s : Sect) (n : Str) (f : Sect → Sect) : Sect :=
  .mk s.vals (updA s.subs n (fun o => f (o.getD .empty)))

/-- Apply `f` to the node addressed by `path`, auto-vivifying every
missing section along the way (`Parser::navigate_to_section`). -/
def updPath (t : Sect) : List Str → (Sect → Sect) → Sect
  | [], f => f t
  | n :: rest, f => t.updSub n (fun c => updPath c rest f)

/-- Model of `navigate_to_section(path)` followed by
`(*target)[key] = v`. -/
def insertAt (t : Sect) : List Str → Str → Value → Sect
  | [], k, v => t.setValue k v
  | n :: rest, k, v => t.updSub n (fun c => insertAt c rest k v)

/-- Replace the node addressed by `path` (auto-vivifying) by `s`. -/
def graftAt (t : Sect) (p : List Str) (s : Sect) : Sect := updPath t p (fun _ => s)

/-- The node addressed by `path`, `none` when some step is missing. -/
def atPath (t : Sect) : List Str → Option Sect
  | [] => some t
  | n :: rest =>
    match lookupA t.subs n with
    | none => none
    | some c => atPath c rest

/-- Parse errors of `Parser::parse_string`, with the structured content
of the C++ exception messages (1-based line number within the text after
block-comment removal, and the comment-stripped trimmed line).
`ubEmptyValue` marks the one configuration — an assignment whose value
text is empty — on which the C++ code commits undefined behaviour
instead of raising. -/
inductive PErr where
  | invalidLine (lineNum : Nat) (line : Str)
  | emptyKey (lineNum : Nat) (line : Str)
  | ubEmptyValue (lineNum : Nat) (line : Str)

/-- Running state of the `parse_string` loop: the nesting-depth stack of
section names, and the document tree built so far. -/
structure PState where
  stack : List Str
  root : Sect

/-- Model of `std::vector::resize(n)`: truncate to `n` elements, or pad
at the end with value-initialised (empty) strings. -/
def resizeStack (n : Nat) (l : List Str) : List Str :=
  l.take n ++ List.replicate (n - l.length) []

/-- Processing of one line of the `parse_string` loop: strip the line
comment, trim; skip if empty; a leading caret run makes a section header
(resize the stack to `count − 1` and append the name); otherwise split
at the first `=` into key and value and store the parsed value at the
path given by the stack. -/
def processLine (st : PState) (lineNum : Nat) (raw : Str) : Except PErr PState :=
  let line := trim (remove_line_comments raw)
  if line = [] then .ok st
  else
    let carets := count_carets line
    if carets > 0 then
      let name := trim (line.drop carets)
      .ok ⟨resizeStack (carets - 1) st.stack ++ [name], st.root⟩
    else
      match breakOn ['='] line with
      | none => .error (.invalidLine lineNum line)
      | some (pre, post) =>
        let key := trim pre
        let vstr := trim post
        if key = [] then .error (.emptyKey lineNum line)
        else
          match parse_valueQ vstr with
          | none => .error (.ubEmptyValue lineNum line)
          | some v => .ok ⟨st.stack, insertAt st.root st.stack key v⟩

/-- The `while (std::getline(...))` loop of `parse_string`, starting at
the given 1-based line number. -/
def processLines : PState → Nat → List Str → Except PErr PState
  | st, _, [] => .ok st
  | st, n, l :: rest =>
    match processLine st n l with
    | .error e => .error e
    | .ok st2 => processLines st2 (n + 1) rest

/-- Model of `Parser::parse_string` as invoked on a parser object whose
tree is `root_`: clear the tree, remove block comments, then run the
line loop. -/
def parse_string_on (root_ : Sect) (content : Str) : Except PErr Sect :=
  match processLines ⟨[], Sect.clearS root_⟩ 1
      (getlinesBy '\n' (remove_multiline_comments content)) with
  | .error e => .error e
  | .ok st => .ok st.root

/-- Model of `Parser::parse_string` on a freshly constructed parser. -/
def parse_string (content : Str) : Except PErr Sect :=
  parse_string_on Sect.empty content

/-- Comma-and-space join of rendered array elements
(`if (i > 0) out << ", ";`). -/
def joinCS : List Str → Str
  | [] => []
  | [x] => x
  | x :: y :: rest => x ++ ',' :: ' ' :: joinCS (y :: rest)

/-- Fueled model of `Parser::write_value`: the writer dispatches on the
stored variant — a string is wrapped in single quotes, a boolean is
rendered from `as_bool`, an array recursively with `[`, `, `, `]`, and
the remaining (numeric) variants through `as_string`.  The variant
dispatch happens before any coercion, so the `as_string` calls are on
non-array variants and never fail; this total function returns their
values directly (`write_valueO` below threads the possible failure and
is proved to agree at every fuel).  Theorems about the writer take fuel
hypotheses that force the fuel to exceed the nesting depth, so the
fuel-exhaustion branch is never observed. -/
def write_value : Nat → Value → Str
  | 0, _ => []
  | fuel + 1, v =>
    match v with
    | .str s => '\'' :: s ++ ['\'']
    | .bool b => if b then toStr "true" else toStr "false"
    | .arr xs => '[' :: joinCS (xs.map (write_value fuel)) ++ [']']
    | .int n => intToStr n
    | .real q => realToStr q

/-- Fueled model of `Parser::write_value` with the coercion failures of
`as_string`/`as_bool` threaded through, exactly as the source calls
them. -/
def write_valueO : Nat → Value → Option Str
  | 0, _ => some []
  | fuel + 1, v =>
    match v with
    | .str _ => (as_string v).map (fun s => '\'' :: s ++ ['\''])
    | .bool _ => (as_bool v).map (fun b => if b then toStr "true" else toStr "false")
    | .arr xs => (xs.mapM (write_valueO fuel)).map (fun ws => '[' :: joinCS ws ++ [']'])
    | _ => as_string v

/-- The `key = value` lines for the properties of one section, at the
given indentation. -/
def write_values (fuel : Nat) (vals : List (Str × Value)) (ind : Nat) : Str :=
  (vals.map (fun kv =>
    List.replicate ind ' ' ++ kv.1 ++ toStr " = " ++ write_value fuel kv.2 ++ ['\n'])).flatten

/-- Fueled model of `Parser::write_section`: the header line (except at
the root), the property lines one level deeper, then the subsections.
The C++ loop emits a blank line before every subsection except the
first subsection of the root; equivalently, at the root the subsection
blocks are interleaved with single blank lines, and below the root each
block is preceded by one. -/
def write_section : Nat → Sect → List Str → Nat → Str
  | 0, _, _, _ => []
  | fuel + 1, .mk vals subs, path, indent =>
    (if path = [] then []
     else
       List.replicate (indent * 4) ' ' ++ List.replicate (indent + 1) '^' ++
         ' ' :: path.getLastD [] ++ ['\n']) ++
    write_values (fuel + 1) vals ((indent + (if path = [] then 0 else 1)) * 4) ++
    (if path = [] then
       List.intercalate ['\n'] (subs.map (fun ns =>
         write_section fuel ns.2 (path ++ [ns.1]) (indent + (if path = [] then 0 else 1))))
     else
       ((subs.map (fun ns =>
         write_section fuel ns.2 (path ++ [ns.1]) (indent + (if path = [] then 0 else 1)))).map
           (fun b => '\n' :: b)).flatten)

/-- Model of `Parser::write_string` / `write_stream`: write the root
section with an empty path. -/
def write_string (fuel : Nat) (d : Sect) : Str := write_section fuel d [] 0

/-! ### Basic facts about `trim` -/

theorem dropWhile_eq_nil_of_all {p : Char → Bool} {l : Str} (h : ∀ c ∈ l, p c = true) :
    l.dropWhile p = [] := by
  induction l with
  | nil => rfl
  | cons a tl ih =>
    rw [List.dropWhile_cons, if_pos (h a (by simp))]
    exact ih fun c hc => h c (by simp [hc])

theorem dropWhile_eq_self_of_head {p : Char → Bool} {l : Str}
    (h : ∀ c, l.head? = some c → p c = false) : l.dropWhile p = l := by
  cases l with
  | nil => rfl
  | cons a tl => rw [List.dropWhile_cons, if_neg (by simp [h a rfl])]

theorem head?_dropWhile_false {p : Char → Bool} {l : Str} {c : Char}
    (h : (l.dropWhile p).head? = some c) : p c = false := by
  induction l with
  | nil => simp at h
  | cons a tl ih =>
    rw [List.dropWhile_cons] at h
    by_cases hp : p a
    · exact ih (by simpa [hp] using h)
    · rw [if_neg hp] at h
      simp only [List.head?_cons, Option.some.injEq] at h
      subst h; simpa using hp

theorem trim_nil : trim [] = [] := rfl

theorem trim_head_not_ws {s : Str} {c : Char} (h : (trim s).head? = some c) :
    isWs c = false := by
  unfold trim at h
  set m := s.dropWhile isWs with hm
  have hsuf : m.reverse.dropWhile isWs <:+ m.reverse := List.dropWhile_suffix isWs
  rcases hsuf with ⟨w, hw⟩
  have hrev : trim s = (m.reverse.dropWhile isWs).reverse := rfl
  rcases hd : (m.reverse.dropWhile isWs).reverse with _ | ⟨a, tl⟩
  · rw [hd] at h; simp at h
  · rw [hd] at h
    simp only [List.head?_cons, Option.some.injEq] at h
    subst h
    have : m = (a :: tl) ++ w.reverse := by
      have := congrArg List.reverse hw
      simpa [hd] using this.symm
    have hmh : m.head? = some a := by rw [this]; rfl
    exact head?_dropWhile_false (p := isWs) (l := s) (hm ▸ hmh)

theorem trim_getLast_not_ws {s : Str} {c : Char} (h : (trim s).getLast? = some c) :
    isWs c = false := by
  unfold trim at h
  rw [List.getLast?_reverse] at h
  exact head?_dropWhile_false h

theorem trim_eq_self {s : Str} (h1 : ∀ c, s.head? = some c → isWs c = false)
    (h2 : ∀ c, s.getLast? = some c → isWs c = false) : trim s = s := by
  unfold trim
  rw [dropWhile_eq_self_of_head h1]
  rw [dropWhile_eq_self_of_head (by intro c hc; rw [List.head?_reverse] at hc; exact h2 c hc)]
  exact List.reverse_reverse s

theorem trim_append_ws_left {w s : Str} (h : ∀ c ∈ w, isWs c = true) :
    trim (w ++ s) = trim s := by
  unfold trim
  rw [List.dropWhile_append, dropWhile_eq_nil_of_all h]
  simp

theorem trim_append_ws_right {w s : Str} (h : ∀ c ∈ w, isWs c = true) :
    trim (s ++ w) = trim s := by
  unfold trim
  rw [List.dropWhile_append]
  by_cases he : (s.dropWhile isWs).isEmpty
  · rw [if_pos he, dropWhile_eq_nil_of_all h]
    have : s.dropWhile isWs = [] := by simpa [List.isEmpty_iff] using he
    simp [this]
  · rw [if_neg he, List.reverse_append, List.dropWhile_append,
      dropWhile_eq_nil_of_all (by intro c hc; exact h c (by simpa using hc))]
    simp

theorem trim_replicate_space (n : Nat) (s : Str) :
    trim (List.replicate n ' ' ++ s) = trim s :=
  trim_append_ws_left (by intro c hc; simp at hc; simp [hc.2, isWs])

theorem trim_space_cons (s : Str) : trim (' ' :: s) = trim s := by
  have := trim_replicate_space 1 s
  simpa using this

theorem trim_append_space (s : Str) : trim (s ++ [' ']) = trim s :=
  trim_append_ws_right (by intro c hc; simp at hc; simp [hc, isWs])

theorem trim_length_le (s : Str) : (trim s).length ≤ s.length := by
  unfold trim
  calc ((s.dropWhile isWs).reverse.dropWhile isWs).reverse.length
      ≤ (s.dropWhile isWs).reverse.length := by
        rw [List.length_reverse]
        exact (List.dropWhile_sublist _).length_le
    _ ≤ s.length := by
        rw [List.length_reverse]
        exact (List.dropWhile_sublist _).length_le

theorem trim_trim (s : Str) : trim (trim s) = trim s :=
  trim_eq_self (fun c hc => trim_head_not_ws hc) (fun c hc => trim_getLast_not_ws hc)

theorem trim_stable_head {s : Str} {c : Char} (hs : trim s = s) (h : s.head? = some c) :
    isWs c = false :=
  trim_head_not_ws (s := s) (by rw [hs]; exact h)

theorem trim_stable_getLast {s : Str} {c : Char} (hs : trim s = s) (h : s.getLast? = some c) :
    isWs c = false :=
  trim_getLast_not_ws (s := s) (by rw [hs]; exact h)

/-- Splice two trim-stable non-empty strings (the second may be empty)
around arbitrary middle text: trimming keeps everything when the ends
are non-whitespace. -/
theorem trim_eq_self_of_ends {s : Str} {a b : Char} (h1 : s.head? = some a)
    (h2 : s.getLast? = some b) (ha : isWs a = false) (hb : isWs b = false) :
    trim s = s :=
  trim_eq_self (fun c hc => by rw [h1] at hc; cases hc; exact ha)
    (fun c hc => by rw [h2] at hc; cases hc; exact hb)

/-! ### Basic facts about `breakOn`, `has2`, `splitCh` -/

theorem breakOn_some_eq {pat l a b : Str} (hp : pat ≠ []) (h : breakOn pat l = some (a, b)) :
    l = a ++ pat ++ b := by
  induction l generalizing a with
  | nil => simp [breakOn, hp] at h
  | cons c tl ih =>
    rw [breakOn] at h
    by_cases hpre : pat.isPrefixOf (c :: tl)
    · rw [if_pos hpre] at h
      simp only [Option.some.injEq, Prod.mk.injEq] at h
      obtain ⟨t, ht⟩ := (List.isPrefixOf_iff_prefix.mp hpre)
      rw [← h.1, ← h.2, ← ht]
      simp [← ht, List.drop_left]
    · rw [if_neg hpre] at h
      cases ha : breakOn pat tl with
      | none => rw [ha] at h; simp at h
      | some p =>
        rw [ha] at h
        simp only [Option.map_some', Option.some.injEq] at h
        obtain ⟨a', b'⟩ := p
        cases h
        have := ih ha
        simp [this]

theorem breakOn_none_left {pat l a b : Str} (hp : pat ≠ []) (h : breakOn pat l = some (a, b)) :
    breakOn pat a = none := by
  induction l generalizing a with
  | nil => simp [breakOn, hp] at h
  | cons c tl ih =>
    rw [breakOn] at h
    by_cases hpre : pat.isPrefixOf (c :: tl)
    · rw [if_pos hpre] at h
      simp only [Option.some.injEq, Prod.mk.injEq] at h
      rw [← h.1]
      simp [breakOn, hp]
    · rw [if_neg hpre] at h
      cases ha : breakOn pat tl with
      | none => rw [ha] at h; simp at h
      | some p =>
        rw [ha] at h
        simp only [Option.map_some', Option.some.injEq] at h
        obtain ⟨a', b'⟩ := p
        cases h
        rw [breakOn]
        have hnp : ¬ pat.isPrefixOf (c :: a') := by
          intro hyes
          apply hpre
          rw [List.isPrefixOf_iff_prefix] at hyes ⊢
          have : (c :: a') <+: (c :: tl) := by
            have := breakOn_some_eq hp ha
            exact ⟨pat ++ b', by simp [this]⟩
          exact hyes.trans this
        rw [if_neg hnp, ih ha]
        rfl

theorem breakOn_nil_of_has2_false {c1 c2 : Char} {l : Str}
    (h : has2 c1 c2 l = false) : breakOn [c1, c2] l = none := by
  induction l with
  | nil => simp [breakOn]
  | cons a tl ih =>
    rw [breakOn]
    cases tl with
    | nil =>
      rw [if_neg (by simp [List.isPrefixOf])]
      simp [breakOn]
    | cons b r =>
      rw [has2] at h
      simp only [Bool.or_eq_false_iff, Bool.and_eq_false_iff] at h
      rw [if_neg (by
        simp only [List.isPrefixOf, Bool.and_eq_true, beq_iff_eq, List.isPrefixOf_nil_left]
        rintro ⟨rfl, rfl, -⟩
        rcases h.1 with h1 | h1 <;> simp at h1)]
      rw [ih h.2]
      rfl

theorem breakOn_single_eq {c : Char} {a b : Str} (h : c ∉ a) :
    breakOn [c] (a ++ c :: b) = some (a, b) := by
  induction a with
  | nil => simp [breakOn, List.isPrefixOf]
  | cons x a' ih =>
    rw [List.cons_append, breakOn]
    rw [if_neg (by
      simp only [List.isPrefixOf, Bool.and_eq_true, beq_iff_eq, List.isPrefixOf_nil_left]
      rintro ⟨rfl, -⟩
      exact h (by simp))]
    rw [ih (fun hx => h (by simp [hx]))]
    rfl

theorem breakOn_single_none {c : Char} {l : Str} (h : c ∉ l) : breakOn [c] l = none := by
  induction l with
  | nil => simp [breakOn]
  | cons x tl ih =>
    rw [breakOn]
    rw [if_neg (by
      simp only [List.isPrefixOf, Bool.and_eq_true, beq_iff_eq, List.isPrefixOf_nil_left]
      rintro ⟨rfl, -⟩
      exact h (by simp))]
    rw [ih (fun hx => h (by simp [hx]))]
    rfl

theorem has2_append (c1 c2 : Char) (a b : Str) :
    has2 c1 c2 (a ++ b) =
      (has2 c1 c2 a || has2 c1 c2 b ||
        (a.getLast? = some c1 && b.head? = some c2)) := by
  induction a with
  | nil => simp [has2]
  | cons x a' ih =>
    cases a' with
    | nil =>
      cases b with
      | nil => simp [has2]
      | cons y r =>
        simp only [List.cons_append, List.nil_append, has2]
        simp [Bool.or_comm]
    | cons y a'' =>
      simp only [List.cons_append] at ih ⊢
      rw [has2, ih, has2]
      simp only [List.getLast?_cons_cons]
      cases hxy : (decide (x = c1) && decide (y = c2)) <;> simp_all [Bool.or_assoc]

theorem splitCh_ne_nil (c : Char) (l : Str) : splitCh c l ≠ [] := by
  induction l with
  | nil => simp [splitCh]
  | cons a tl ih =>
    rw [splitCh]
    by_cases hac : a = c
    · simp [hac]
    · rw [if_neg hac]
      cases h : splitCh c tl with
      | nil => simp
      | cons x t => simp

theorem splitCh_of_not_mem {c : Char} {l : Str} (h : c ∉ l) : splitCh c l = [l] := by
  induction l with
  | nil => rfl
  | cons a tl ih =>
    rw [splitCh, if_neg (by rintro rfl; exact h (by simp))]
    rw [ih (fun hx => h (by simp [hx]))]

theorem splitCh_append_sep {c : Char} {a b : Str} (h : c ∉ a) :
    splitCh c (a ++ c :: b) = a :: splitCh c b := by
  induction a with
  | nil => simp [splitCh]
  | cons x a' ih =>
    rw [List.cons_append, splitCh, if_neg (by rintro rfl; exact h (by simp))]
    rw [ih (fun hx => h (by simp [hx]))]

theorem splitCh_cons_ne {c x : Char} (l : Str) (h : x ≠ c) :
    splitCh c (x :: l) =
      (x :: (splitCh c l).headI) :: (splitCh c l).tail := by
  rw [splitCh, if_neg h]
  cases hs : splitCh c l with
  | nil => exact absurd hs (splitCh_ne_nil c l)
  | cons a t => rfl

theorem length_le_of_mem_splitCh {c : Char} {l x : Str} (h : x ∈ splitCh c l) :
    x.length ≤ l.length := by
  induction l generalizing x with
  | nil => simp [splitCh] at h; simp [h]
  | cons a tl ih =>
    rw [splitCh] at h
    by_cases hac : a = c
    · rw [if_pos hac, List.mem_cons] at h
      rcases h with h | h
      · simp [h]
      · exact (ih h).trans (by simp)
    · rw [if_neg hac] at h
      cases hs : splitCh c tl with
      | nil => exact absurd hs (splitCh_ne_nil c tl)
      | cons y t =>
        rw [hs, List.mem_cons] at h
        rcases h with h | h
        · have : y ∈ splitCh c tl := by rw [hs]; simp
          have := ih this
          simp [h, List.length_cons]
          omega
        · have : x ∈ splitCh c tl := by rw [hs]; simp [h]
          exact (ih this).trans (by simp)

/-! ### `count_carets` -/

theorem count_carets_nil : count_carets [] = 0 := rfl

theorem count_carets_cons_ne {c : Char} (l : Str) (h : c ≠ '^') :
    count_carets (c :: l) = 0 := by
  simp [count_carets, List.takeWhile_cons, h]

theorem count_carets_eq_zero {l : Str} (h : ∀ c, l.head? = some c → c ≠ '^') :
    count_carets l = 0 := by
  cases l with
  | nil => rfl
  | cons a tl => exact count_carets_cons_ne tl (h a rfl)

theorem count_carets_header (d : Nat) (rest : Str) :
    count_carets (List.replicate d '^' ++ ' ' :: rest) = d := by
  unfold count_carets
  rw [List.takeWhile_append]
  rw [List.takeWhile_replicate]
  simp [List.takeWhile_cons]

theorem drop_header (d : Nat) (rest : Str) :
    (List.replicate d '^' ++ ' ' :: rest).drop d = ' ' :: rest := by
  rw [List.drop_append_of_le_length (by simp)]
  simp

/-! ### Decimal rendering and numeric parsing -/

theorem takeWhile_eq_self_of_all {p : Char → Bool} {l : Str} (h : ∀ c ∈ l, p c = true) :
    l.takeWhile p = l := by
  induction l with
  | nil => rfl
  | cons a tl ih =>
    rw [List.takeWhile_cons, if_pos (h a (by simp))]
    rw [ih fun c hc => h c (by simp [hc])]

theorem takeWhile_append_stop {p : Char → Bool} {a b : Str}
    (ha : ∀ c ∈ a, p c = true) (hb : ∀ c, b.head? = some c → p c = false) :
    (a ++ b).takeWhile p = a := by
  rw [List.takeWhile_append, takeWhile_eq_self_of_all ha, if_pos rfl]
  cases b with
  | nil => simp
  | cons x r =>
    rw [List.takeWhile_cons, if_neg (by simp [hb x rfl])]
    simp

theorem toNat_ofNat_digit {m : Nat} (h : m ≤ 9) : (Char.ofNat (48 + m)).toNat = 48 + m := by
  interval_cases m <;> decide

theorem isDig_digitChar {m : Nat} (h : m ≤ 9) : isDig (Char.ofNat (48 + m)) = true := by
  interval_cases m <;> decide

theorem natToStrF_congr {n : Nat} : ∀ {f1 f2 : Nat}, n < f1 → n < f2 →
    natToStrF f1 n = natToStrF f2 n := by
  induction n using Nat.strong_induction_on with
  | _ n ih =>
    intro f1 f2 h1 h2
    match f1, f2 with
    | g1 + 1, g2 + 1 =>
      rw [natToStrF, natToStrF]
      by_cases hn : n < 10
      · rw [if_pos hn, if_pos hn]
      · have hd : n / 10 < n := Nat.div_lt_self (by omega) (by omega)
        rw [if_neg hn, if_neg hn, @ih (n / 10) hd g1 g2 (by omega) (by omega)]

theorem natToStr_small {n : Nat} (h : n < 10) : natToStr n = [Char.ofNat (48 + n)] := by
  rw [natToStr, natToStrF, if_pos h]

theorem natToStr_step {n : Nat} (h : ¬ n < 10) :
    natToStr n = natToStr (n / 10) ++ [Char.ofNat (48 + n % 10)] := by
  have hd : n / 10 < n := Nat.div_lt_self (by omega) (by omega)
  rw [natToStr, natToStrF, if_neg h, natToStr,
    @natToStrF_congr (n / 10) n (n / 10 + 1) (by omega) (by omega)]

theorem natToStr_ne_nil (n : Nat) : natToStr n ≠ [] := by
  by_cases h : n < 10
  · rw [natToStr_small h]; simp
  · rw [natToStr_step h]; simp

theorem isDig_of_mem_natToStr {n : Nat} : ∀ {c : Char}, c ∈ natToStr n → isDig c = true := by
  induction n using Nat.strong_induction_on with
  | _ n ih =>
    intro c hc
    by_cases h : n < 10
    · rw [natToStr_small h] at hc
      simp only [List.mem_singleton] at hc
      subst hc
      exact isDig_digitChar (by omega)
    · rw [natToStr_step h] at hc
      rcases List.mem_append.mp hc with hc | hc
      · exact ih (n / 10) (Nat.div_lt_self (by omega) (by omega)) hc
      · simp only [List.mem_singleton] at hc
        subst hc
        exact isDig_digitChar (by omega)

theorem digitsVal_concat (a : Str) (d : Char) :
    digitsVal (a ++ [d]) = 10 * digitsVal a + (d.toNat - 48) := by
  simp [digitsVal, List.foldl_append]

theorem digitsVal_natToStr (n : Nat) : digitsVal (natToStr n) = n := by
  induction n using Nat.strong_induction_on with
  | _ n ih =>
    by_cases h : n < 10
    · rw [natToStr_small h]
      simp [digitsVal, toNat_ofNat_digit (by omega : n ≤ 9)]
    · rw [natToStr_step h, digitsVal_concat, ih (n / 10) (Nat.div_lt_self (by omega) (by omega)),
        toNat_ofNat_digit (by omega : n % 10 ≤ 9)]
      omega

theorem digitsVal_padZeros (k : Nat) (ds : Str) : digitsVal (padZeros k ds) = digitsVal ds := by
  unfold padZeros digitsVal
  rw [List.foldl_append]
  congr 1
  generalize k - ds.length = j
  induction j with
  | zero => rfl
  | succ m ihm => rw [List.replicate_succ, List.foldl_cons]; simpa using ihm

theorem natToStr_length_le {n k : Nat} (hk : 1 ≤ k) (h : n < 10 ^ k) :
    (natToStr n).length ≤ k := by
  induction n using Nat.strong_induction_on generalizing k with
  | _ n ih =>
    by_cases hn : n < 10
    · rw [natToStr_small hn]; simpa using hk
    · rw [natToStr_step hn]
      have hk2 : 2 ≤ k := by
        rcases Nat.lt_or_ge k 2 with hlt | hge
        · interval_cases k <;> omega
        · exact hge
      have : n / 10 < 10 ^ (k - 1) := by
        rw [Nat.div_lt_iff_lt_mul (by omega)]
        calc n < 10 ^ k := h
          _ = 10 ^ (k - 1) * 10 := by
            rw [← pow_succ]
            congr 1
            omega
      have := ih (n / 10) (Nat.div_lt_self (by omega) (by omega)) (by omega) this
      simp only [List.length_append, List.length_cons, List.length_nil]
      omega

theorem padZeros_length {k : Nat} {ds : Str} (h : ds.length ≤ k) :
    (padZeros k ds).length = k := by
  simp [padZeros]
  omega

theorem isCppSpace_false_of_isDig {c : Char} (h : isDig c = true) : isCppSpace c = false := by
  have h48 : 48 ≤ c.toNat ∧ c.toNat ≤ 57 := by simpa [isDig] using h
  simp only [isCppSpace, Bool.or_eq_false_iff, decide_eq_false_iff_not]
  refine ⟨⟨⟨⟨⟨?_, ?_⟩, ?_⟩, ?_⟩, ?_⟩, ?_⟩ <;> (rintro rfl; revert h48; decide)

theorem signSplit_no_sign {s : Str} (h : ∀ c, s.head? = some c → isDig c = true) :
    signSplit s = (false, s) := by
  cases s with
  | nil => rfl
  | cons a tl =>
    have ha := h a rfl
    unfold signSplit
    split
    · rename_i heq
      injection heq with h1 h2
      subst h1
      exact absurd ha (by decide)
    · rename_i heq
      injection heq with h1 h2
      subst h1
      exact absurd ha (by decide)
    · rfl

theorem stoiM_intToStr {n : Int} (h1 : -(2 ^ 31) ≤ n) (h2 : n < 2 ^ 31) :
    stoiM (intToStr n) = some n := by
  unfold stoiM intToStr
  by_cases hn : n < 0
  · rw [if_pos hn]
    rw [dropWhile_eq_self_of_head (by
      intro c hc
      injection hc with hc
      subst hc
      decide)]
    have hsg : signSplit ('-' :: natToStr (-n).toNat) = (true, natToStr (-n).toNat) := rfl
    rw [hsg]
    simp only
    rw [takeWhile_eq_self_of_all fun c hc => isDig_of_mem_natToStr hc]
    rw [if_neg (natToStr_ne_nil _)]
    rw [digitsVal_natToStr]
    have hcast : ((-n).toNat : Int) = -n := Int.toNat_of_nonneg (by omega)
    rw [hcast]
    norm_num
    intro h
    exact absurd (h (by omega)) (by omega)
  · rw [if_neg hn]
    rw [dropWhile_eq_self_of_head (by
      intro c hc
      have hne := natToStr_ne_nil n.toNat
      cases hh : natToStr n.toNat with
      | nil => exact absurd hh hne
      | cons x r =>
        rw [hh] at hc
        injection hc with hc
        subst hc
        exact isCppSpace_false_of_isDig (isDig_of_mem_natToStr (by rw [hh]; simp)))]
    rw [signSplit_no_sign (by
      intro c hc
      have hne := natToStr_ne_nil n.toNat
      cases hh : natToStr n.toNat with
      | nil => exact absurd hh hne
      | cons x r =>
        rw [hh] at hc
        injection hc with hc
        subst hc
        exact isDig_of_mem_natToStr (by rw [hh]; simp))]
    simp only
    rw [takeWhile_eq_self_of_all fun c hc => isDig_of_mem_natToStr hc]
    rw [if_neg (natToStr_ne_nil _)]
    rw [digitsVal_natToStr]
    have hcast : (n.toNat : Int) = n := Int.toNat_of_nonneg (by omega)
    rw [hcast]
    norm_num
    intro h
    exact absurd (h (by omega)) (by omega)

theorem isDig_pad_all {k : Nat} {B : Nat} :
    ∀ c ∈ padZeros k (natToStr B), isDig c = true := by
  intro c hc
  rcases List.mem_append.mp hc with hc | hc
  · rw [List.eq_of_mem_replicate hc]
    decide
  · exact isDig_of_mem_natToStr hc

theorem realToStr_eq (q : Rat) :
    realToStr q =
      (if round (q * 1000000) < 0 then ['-'] else []) ++
        natToStr ((round (q * 1000000)).natAbs / 1000000) ++
        '.' :: padZeros 6 (natToStr ((round (q * 1000000)).natAbs % 1000000)) := rfl

theorem fracSplit_dot (r : Str) :
    fracSplit ('.' :: r) = (r.takeWhile isDig, r.drop (r.takeWhile isDig).length) := rfl

theorem expVal_nil : expVal [] = 0 := rfl

theorem stodCore_shape (neg : Bool) (A B : Nat) (hB6 : B < 10 ^ 6) :
    stodCore (neg, natToStr A ++ '.' :: padZeros 6 (natToStr B)) =
      some ((if neg then -1 else 1) * ((A : Rat) + (B : Rat) / 1000000)) := by
  have h1 : (natToStr A ++ '.' :: padZeros 6 (natToStr B)).takeWhile isDig = natToStr A :=
    takeWhile_append_stop (fun c hc => isDig_of_mem_natToStr hc)
      (by intro c hc; injection hc with hc; subst hc; decide)
  have h2 : (natToStr A ++ '.' :: padZeros 6 (natToStr B)).drop (natToStr A).length =
      '.' :: padZeros 6 (natToStr B) := List.drop_left _ _
  have hlen : (padZeros 6 (natToStr B)).length = 6 :=
    padZeros_length (natToStr_length_le (by norm_num) hB6)
  unfold stodCore
  simp only [h1, h2, fracSplit_dot]
  rw [takeWhile_eq_self_of_all isDig_pad_all]
  rw [if_neg (by simp [natToStr_ne_nil])]
  rw [List.drop_length, expVal_nil, digitsVal_padZeros, digitsVal_natToStr, digitsVal_natToStr,
    hlen]
  norm_num

theorem stodM_realToStr {q : Rat} (h : (q * 1000000).den = 1) :
    stodM (realToStr q) = some q := by
  have hm : ((q * 1000000).num : Rat) = q * 1000000 := by
    rw [← Rat.den_eq_one_iff]
    exact h
  set m : Int := (q * 1000000).num with hmdef
  have hq : q = (m : Rat) / 1000000 := by
    rw [hm]
    field_simp
  have hround : round (q * 1000000) = m := by rw [← hm, round_intCast]
  set A : Nat := m.natAbs / 1000000 with hA
  set B : Nat := m.natAbs % 1000000 with hB
  have hAB : (A : Rat) + (B : Rat) / 1000000 = (m.natAbs : Rat) / 1000000 := by
    have hdm : A * 1000000 + B = m.natAbs := by rw [hA, hB]; omega
    field_simp
    push_cast [← hdm]
    ring
  unfold stodM
  rw [realToStr_eq, hround, ← hA, ← hB]
  by_cases hneg : m < 0
  · rw [if_pos hneg]
    have harg : (['-'] ++ natToStr A ++ '.' :: padZeros 6 (natToStr B)).dropWhile isCppSpace =
        '-' :: (natToStr A ++ '.' :: padZeros 6 (natToStr B)) := by
      simp only [List.cons_append, List.nil_append]
      exact dropWhile_eq_self_of_head (by intro c hc; injection hc with hc; subst hc; decide)
    rw [harg]
    have hsg : signSplit ('-' :: (natToStr A ++ '.' :: padZeros 6 (natToStr B))) =
        (true, natToStr A ++ '.' :: padZeros 6 (natToStr B)) := rfl
    rw [hsg, stodCore_shape _ _ _ (by rw [hB]; exact Nat.mod_lt _ (by norm_num)), hAB, hq]
    rw [Int.cast_natAbs, abs_of_neg hneg]
    push_cast
    norm_num [neg_div]
  · rw [if_neg hneg]
    have hhead : ∀ c : Char, (natToStr A ++ '.' :: padZeros 6 (natToStr B)).head? = some c →
        isDig c = true := by
      intro c hc
      have hne := natToStr_ne_nil A
      cases hh : natToStr A with
      | nil => exact absurd hh hne
      | cons x r =>
        rw [hh, List.cons_append] at hc
        injection hc with hc
        subst hc
        exact isDig_of_mem_natToStr (by rw [hh]; simp)
    have harg : (([] : Str) ++ natToStr A ++ '.' :: padZeros 6 (natToStr B)).dropWhile isCppSpace =
        natToStr A ++ '.' :: padZeros 6 (natToStr B) := by
      simp only [List.nil_append]
      exact dropWhile_eq_self_of_head fun c hc => isCppSpace_false_of_isDig (hhead c hc)
    rw [harg, signSplit_no_sign hhead,
      stodCore_shape _ _ _ (by rw [hB]; exact Nat.mod_lt _ (by norm_num)), hAB, hq]
    rw [Int.cast_natAbs, abs_of_nonneg (by omega : (0 : Int) ≤ m)]
    norm_num

/-! ### The section tree: association-list and path lemmas -/

theorem Sect.vals_mk (v : List (Str × Value)) (sb : List (Str × Sect)) :
    (Sect.mk v sb).vals = v := rfl

theorem Sect.subs_mk (v : List (Str × Value)) (sb : List (Str × Sect)) :
    (Sect.mk v sb).subs = sb := rfl

theorem updA_updA_same {α : Type} (l : List (Str × α)) (k : Str) (f g : Option α → α) :
    updA (updA l k f) k g = updA l k (fun o => g (some (f o))) := by
  induction l with
  | nil => simp [updA]
  | cons p tl ih =>
    obtain ⟨k1, a⟩ := p
    by_cases hk : k1 = k
    · simp [updA, hk]
    · simp [updA, hk, ih]

theorem lookupA_updA_same {α : Type} (l : List (Str × α)) (k : Str) (f : Option α → α) :
    lookupA (updA l k f) k = some (f (lookupA l k)) := by
  induction l with
  | nil => simp [updA, lookupA]
  | cons p tl ih =>
    obtain ⟨k1, a⟩ := p
    by_cases hk : k1 = k
    · simp [updA, lookupA, hk]
    · simp [updA, lookupA, hk, ih]

theorem lookupA_updA_ne {α : Type} (l : List (Str × α)) {k k2 : Str} (f : Option α → α)
    (h : k2 ≠ k) : lookupA (updA l k f) k2 = lookupA l k2 := by
  have hkk : ¬ k = k2 := fun hy => h hy.symm
  induction l with
  | nil => simp [updA, lookupA, hkk]
  | cons p tl ih =>
    obtain ⟨k1, a⟩ := p
    rw [updA]
    by_cases hk : k1 = k
    · subst hk
      rw [if_pos rfl, lookupA, lookupA, if_neg hkk, if_neg hkk]
    · rw [if_neg hk, lookupA, lookupA]
      by_cases hk2 : k1 = k2
      · rw [if_pos hk2, if_pos hk2]
      · rw [if_neg hk2, if_neg hk2, ih]

theorem updA_congr_lookup {α : Type} {l : List (Str × α)} {k : Str} {f g : Option α → α}
    (h : f (lookupA l k) = g (lookupA l k)) : updA l k f = updA l k g := by
  induction l with
  | nil => simp [updA, lookupA] at h ⊢; simp [h]
  | cons p tl ih =>
    obtain ⟨k1, a⟩ := p
    by_cases hk : k1 = k
    · rw [lookupA, if_pos hk] at h
      simp [updA, hk, h]
    · rw [lookupA, if_neg hk] at h
      simp [updA, hk, ih h]

theorem updA_of_lookup_none {α : Type} {l : List (Str × α)} {k : Str} (f : Option α → α)
    (h : lookupA l k = none) : updA l k f = l ++ [(k, f none)] := by
  induction l with
  | nil => simp [updA]
  | cons p tl ih =>
    obtain ⟨k1, a⟩ := p
    by_cases hk : k1 = k
    · rw [lookupA, if_pos hk] at h
      simp at h
    · rw [lookupA, if_neg hk] at h
      simp [updA, hk, ih h]

theorem lookupA_append_left {α : Type} {l1 : List (Str × α)} (l2 : List (Str × α)) {k : Str}
    {a : α} (h : lookupA l1 k = some a) : lookupA (l1 ++ l2) k = some a := by
  induction l1 with
  | nil => simp [lookupA] at h
  | cons p tl ih =>
    obtain ⟨k1, b⟩ := p
    by_cases hk : k1 = k
    · rw [lookupA, if_pos hk] at h
      simp [lookupA, hk, h]
    · rw [lookupA, if_neg hk] at h
      simp [lookupA, hk, ih h]

theorem lookupA_append_right {α : Type} {l1 : List (Str × α)} (l2 : List (Str × α)) {k : Str}
    (h : lookupA l1 k = none) : lookupA (l1 ++ l2) k = lookupA l2 k := by
  induction l1 with
  | nil => simp
  | cons p tl ih =>
    obtain ⟨k1, b⟩ := p
    by_cases hk : k1 = k
    · rw [lookupA, if_pos hk] at h
      simp at h
    · rw [lookupA, if_neg hk] at h
      simp [lookupA, hk, ih h]

theorem lookupA_of_not_mem {α : Type} {l : List (Str × α)} {k : Str}
    (h : k ∉ l.map Prod.fst) : lookupA l k = none := by
  induction l with
  | nil => rfl
  | cons p tl ih =>
    obtain ⟨k1, a⟩ := p
    simp only [List.map_cons, List.mem_cons] at h
    push_neg at h
    rw [lookupA, if_neg (fun hy => h.1 hy.symm)]
    exact ih h.2

/-! ### `updPath`, `insertAt`, `graftAt`, `atPath` -/

theorem updSub_vals (s : Sect) (n : Str) (f : Sect → Sect) :
    (s.updSub n f).vals = s.vals := rfl

theorem updSub_updSub (s : Sect) (n : Str) (f g : Sect → Sect) :
    (s.updSub n f).updSub n g = s.updSub n (fun c => g (f c)) := by
  unfold Sect.updSub
  rw [Sect.vals_mk, Sect.subs_mk, updA_updA_same]
  rfl

theorem updPath_nil (t : Sect) (f : Sect → Sect) : updPath t [] f = f t := rfl

theorem updPath_cons (t : Sect) (n : Str) (p : List Str) (f : Sect → Sect) :
    updPath t (n :: p) f = t.updSub n (fun c => updPath c p f) := rfl

theorem updPath_updPath (t : Sect) (p : List Str) (f g : Sect → Sect) :
    updPath (updPath t p f) p g = updPath t p (fun c => g (f c)) := by
  induction p generalizing t with
  | nil => rfl
  | cons n rest ih =>
    rw [updPath_cons, updPath_cons, updSub_updSub, updPath_cons]
    congr 1
    funext c
    exact ih c

theorem updPath_append (t : Sect) (p r : List Str) (f : Sect → Sect) :
    updPath t (p ++ r) f = updPath t p (fun c => updPath c r f) := by
  induction p generalizing t with
  | nil => rfl
  | cons n rest ih =>
    rw [List.cons_append, updPath_cons, updPath_cons]
    congr 1
    funext c
    exact ih c

theorem insertAt_eq_updPath (t : Sect) (p : List Str) (k : Str) (v : Value) :
    insertAt t p k v = updPath t p (fun c => c.setValue k v) := by
  induction p generalizing t with
  | nil => rfl
  | cons n rest ih =>
    rw [insertAt, updPath_cons]
    congr 1
    funext c
    exact ih c

theorem atPath_nil (t : Sect) : atPath t [] = some t := rfl

theorem atPath_cons (t : Sect) (n : Str) (p : List Str) :
    atPath t (n :: p) =
      match lookupA t.subs n with
      | none => none
      | some c => atPath c p := rfl

theorem atPath_empty_cons (n : Str) (p : List Str) : atPath Sect.empty (n :: p) = none := rfl

theorem atPath_empty_getD (p : List Str) :
    (atPath Sect.empty p).getD Sect.empty = Sect.empty := by
  cases p with
  | nil => rfl
  | cons n rest => rw [atPath_empty_cons]; rfl

theorem atPath_append (t : Sect) (p r : List Str) :
    atPath t (p ++ r) =
      match atPath t p with
      | none => none
      | some c => atPath c r := by
  induction p generalizing t with
  | nil => rfl
  | cons n rest ih =>
    rw [List.cons_append, atPath_cons, atPath_cons]
    cases lookupA t.subs n with
    | none => rfl
    | some c => exact ih c

theorem atPath_updPath_self (t : Sect) (p : List Str) (f : Sect → Sect) :
    atPath (updPath t p f) p = some (f ((atPath t p).getD Sect.empty)) := by
  induction p generalizing t with
  | nil => rfl
  | cons n rest ih =>
    rw [updPath_cons, atPath_cons]
    unfold Sect.updSub
    rw [Sect.subs_mk, lookupA_updA_same]
    simp only
    rw [ih]
    rw [atPath_cons]
    cases h : lookupA t.subs n with
    | none => simp [atPath_empty_getD]
    | some c => simp

theorem atPath_updPath_sibling (t : Sect) (p : List Str) {n1 n2 : Str} (f : Sect → Sect)
    (h : n2 ≠ n1) :
    atPath (updPath t (p ++ [n1]) f) (p ++ [n2]) = atPath t (p ++ [n2]) := by
  induction p generalizing t with
  | nil =>
    simp only [List.nil_append]
    rw [updPath_cons, atPath_cons, atPath_cons]
    unfold Sect.updSub
    rw [Sect.subs_mk, lookupA_updA_ne _ _ h]
  | cons m rest ih =>
    simp only [List.cons_append]
    rw [updPath_cons, atPath_cons, atPath_cons]
    unfold Sect.updSub
    rw [Sect.subs_mk, lookupA_updA_same]
    simp only
    cases hm : lookupA t.subs m with
    | none =>
      simp only [Option.getD_none]
      rw [ih Sect.empty]
      cases rest with
      | nil => simp [atPath_empty_cons]
      | cons x xs => simp [atPath_empty_cons]
    | some c =>
      simp only [Option.getD_some]
      exact ih c

theorem updPath_congr_of_empty {t : Sect} {p : List Str} (f : Sect → Sect)
    (h : atPath t p = none ∨ atPath t p = some Sect.empty) :
    updPath t p f = updPath t p (fun _ => f Sect.empty) := by
  induction p generalizing t with
  | nil =>
    rcases h with h | h
    · rw [atPath_nil] at h; simp at h
    · rw [atPath_nil] at h
      simp only [Option.some.injEq] at h
      subst h
      rfl
  | cons n rest ih =>
    rw [updPath_cons, updPath_cons]
    unfold Sect.updSub
    congr 1
    apply updA_congr_lookup
    cases hl : lookupA t.subs n with
    | none =>
      simp only [Option.getD_none]
      apply ih
      cases rest with
      | nil => exact Or.inr rfl
      | cons x xs => exact Or.inl (atPath_empty_cons x xs)
    | some c =>
      simp only [Option.getD_some]
      apply ih
      rcases h with h | h
      · rw [atPath_cons, hl] at h
        exact Or.inl h
      · rw [atPath_cons, hl] at h
        exact Or.inr h

/-! ### Graft composition -/

theorem graft_insert (t : Sect) (p : List Str) (A : Sect) (k : Str) (v : Value) :
    insertAt (updPath t p (fun _ => A)) p k v = updPath t p (fun _ => A.setValue k v) := by
  rw [insertAt_eq_updPath, updPath_updPath]

theorem graft_graft_child (t : Sect) (p : List Str) (A s1 : Sect) (n : Str) :
    updPath (updPath t p (fun _ => A)) (p ++ [n]) (fun _ => s1) =
      updPath t p (fun _ => A.updSub n (fun _ => s1)) := by
  rw [updPath_append, updPath_updPath]
  rfl

theorem updSub_fresh {s : Sect} {n : Str} (f : Sect → Sect) (h : lookupA s.subs n = none) :
    s.updSub n f = .mk s.vals (s.subs ++ [(n, f .empty)]) := by
  unfold Sect.updSub
  rw [updA_of_lookup_none _ h]
  rfl

theorem setValue_fresh {s : Sect} {k : Str} (v : Value) (h : lookupA s.vals k = none) :
    s.setValue k v = .mk (s.vals ++ [(k, v)]) s.subs := by
  unfold Sect.setValue
  rw [updA_of_lookup_none _ h]

theorem setValue_fold {vals : List (Str × Value)} :
    ∀ {av : List (Str × Value)} {asubs : List (Str × Sect)},
    (vals.map Prod.fst).Nodup →
    (∀ k ∈ vals.map Prod.fst, k ∉ av.map Prod.fst) →
    List.foldl (fun a kv => a.setValue kv.1 kv.2) (Sect.mk av asubs) vals =
      Sect.mk (av ++ vals) asubs := by
  induction vals with
  | nil => intro av asubs _ _; simp
  | cons kv rest ih =>
    intro av asubs hnd hfresh
    obtain ⟨k, v⟩ := kv
    rw [List.foldl_cons]
    rw [setValue_fresh v (lookupA_of_not_mem (hfresh k
      (by simp only [List.map_cons, List.mem_cons]; left; trivial))), Sect.vals_mk,
      Sect.subs_mk]
    rw [List.map_cons, List.nodup_cons] at hnd
    rw [ih hnd.2 (by
      intro k2 hk2
      simp only [List.map_append, List.mem_append, List.map_cons]
      push_neg
      constructor
      · exact hfresh k2 (by simp [hk2])
      · simp only [List.map_nil, List.mem_singleton]
        rintro rfl
        exact hnd.1 hk2)]
    simp

/-! ### Per-line processing -/

theorem head?_append_left {a : Str} (b : Str) (h : a ≠ []) : (a ++ b).head? = a.head? := by
  cases a with
  | nil => exact absurd rfl h
  | cons x tl => rfl

theorem processLine_blank {st : PState} {n : Nat} {raw : Str}
    (h : trim (remove_line_comments raw) = []) : processLine st n raw = .ok st := by
  unfold processLine
  rw [h]
  rfl

theorem resizeStack_of_le {n : Nat} {l : List Str} (h : n ≤ l.length) :
    resizeStack n l = l.take n := by
  simp [resizeStack, Nat.sub_eq_zero_of_le h]

theorem processLine_header {st : PState} {n : Nat} {raw : Str} {d : Nat} {name : Str}
    (hline : trim (remove_line_comments raw) = List.replicate d '^' ++ ' ' :: name)
    (hd : 0 < d) (hname : trim name = name) :
    processLine st n raw = .ok ⟨resizeStack (d - 1) st.stack ++ [name], st.root⟩ := by
  unfold processLine
  simp only [hline]
  rw [if_neg (by simp)]
  rw [count_carets_header]
  rw [if_pos hd]
  rw [drop_header, trim_space_cons, hname]

theorem processLine_assign {st : PState} {n : Nat} {raw : Str} {key vw : Str}
    (hline : trim (remove_line_comments raw) = key ++ ' ' :: '=' :: ' ' :: vw)
    (hkey_ne : key ≠ []) (hkey_first : ∀ c, key.head? = some c → c ≠ '^')
    (hkey_eq : '=' ∉ key) (hkey_trim : trim key = key) (hvw_trim : trim vw = vw)
    (hvw_ne : vw ≠ []) :
    processLine st n raw =
      .ok ⟨st.stack, insertAt st.root st.stack key (parse_value vw)⟩ := by
  unfold processLine
  simp only [hline]
  rw [if_neg (by simp [hkey_ne])]
  rw [count_carets_eq_zero (by
    intro c hc
    rw [head?_append_left _ hkey_ne] at hc
    exact hkey_first c hc)]
  simp only [Nat.lt_irrefl, if_false]
  have hsplit : breakOn ['='] (key ++ ' ' :: '=' :: ' ' :: vw) = some (key ++ [' '], ' ' :: vw) := by
    have : key ++ ' ' :: '=' :: ' ' :: vw = (key ++ [' ']) ++ '=' :: (' ' :: vw) := by simp
    rw [this]
    exact breakOn_single_eq (by
      intro hm
      rcases List.mem_append.mp hm with hm | hm
      · exact hkey_eq hm
      · simp at hm)
  rw [hsplit]
  simp only
  rw [trim_append_space, hkey_trim, trim_space_cons, hvw_trim]
  rw [if_neg hkey_ne]
  unfold parse_valueQ
  rw [hvw_trim, if_neg hvw_ne]

theorem processLines_append (st : PState) (n : Nat) (l1 l2 : List Str) :
    processLines st n (l1 ++ l2) =
      match processLines st n l1 with
      | .error e => .error e
      | .ok st2 => processLines st2 (n + l1.length) l2 := by
  induction l1 generalizing st n with
  | nil => simp [processLines]
  | cons l rest ih =>
    rw [List.cons_append, processLines, processLines]
    cases processLine st n l with
    | error e => rfl
    | ok st2 =>
      simp only
      rw [ih]
      simp only [List.length_cons]
      have : n + (rest.length + 1) = n + 1 + rest.length := by omega
      rw [this]

theorem processLines_cons (st : PState) (n : Nat) (l : Str) (rest : List Str) :
    processLines st n (l :: rest) =
      match processLine st n l with
      | .error e => .error e
      | .ok st2 => processLines st2 (n + 1) rest := rfl

/-! ### `parse_value`: fuel congruence and branch characterizations -/

theorem length_le_of_mem_getlinesBy {c : Char} {l x : Str} (h : x ∈ getlinesBy c l) :
    x.length ≤ l.length := by
  unfold getlinesBy at h
  by_cases hl : l = []
  · rw [if_pos hl] at h
    simp at h
  · rw [if_neg hl] at h
    by_cases hlast : (splitCh c l).getLast? = some []
    · rw [if_pos hlast] at h
      exact length_le_of_mem_splitCh ((List.dropLast_sublist _).subset h)
    · rw [if_neg hlast] at h
      exact length_le_of_mem_splitCh h

theorem elem_length_lt {t x : Str} (ht : t ≠ [])
    (h : x ∈ ((getlinesBy ',' ((t.drop 1).dropLast)).map trim).filter (· ≠ [])) :
    x.length < t.length := by
  have h2 := List.mem_of_mem_filter h
  rcases List.mem_map.mp h2 with ⟨y, hy, rfl⟩
  have h3 : y.length ≤ ((t.drop 1).dropLast).length := length_le_of_mem_getlinesBy hy
  have h4 : ((t.drop 1).dropLast).length ≤ t.length - 1 := by
    simp only [List.length_dropLast, List.length_drop]
    omega
  have h5 := trim_length_le y
  have h6 : 1 ≤ t.length := by
    cases t with
    | nil => exact absurd rfl ht
    | cons a b => simp
  omega

theorem parse_valueF_congr : ∀ {f1 : Nat} {f2 : Nat} {s : Str}, s.length < f1 →
    s.length < f2 → parse_valueF f1 s = parse_valueF f2 s := by
  intro f1
  induction f1 using Nat.strong_induction_on with
  | _ f1 ih =>
    intro f2 s h1 h2
    match f1, f2 with
    | g1 + 1, g2 + 1 =>
      rw [parse_valueF, parse_valueF]
      simp only
      split_ifs with hq hbr
      · rfl
      · congr 1
        apply List.map_congr_left
        intro x hx
        have hne : trim s ≠ [] := by
          intro hnil
          rw [hnil] at hbr
          simp at hbr
        have hlt : x.length < (trim s).length := elem_length_lt hne hx
        have hts := trim_length_le s
        exact ih g1 (by omega) (by omega) (by omega)
      all_goals rfl

theorem parse_value_fuel {s : Str} {f : Nat} (h : s.length < f) :
    parse_value s = parse_valueF f s :=
  parse_valueF_congr (by omega) h

theorem parse_valueF_trim (g : Nat) (s : Str) :
    parse_valueF (g + 1) (trim s) = parse_valueF (g + 1) s := by
  rw [parse_valueF, parse_valueF, trim_trim]

theorem parse_value_trim (s : Str) : parse_value (trim s) = parse_value s := by
  have h1 : (trim s).length < s.length + 1 := by
    have := trim_length_le s
    omega
  rw [parse_value, @parse_valueF_congr ((trim s).length + 1) (s.length + 1) (trim s)
    (by omega) h1]
  exact parse_valueF_trim s.length s

theorem getLast?_cons_concat (a : Char) (s : Str) (c : Char) :
    (a :: (s ++ [c])).getLast? = some c := by
  rw [show a :: (s ++ [c]) = (a :: s) ++ [c] by simp]
  exact List.getLast?_concat _

theorem parse_value_quoted (s : Str) : parse_value ('\'' :: s ++ ['\'']) = .str s := by
  rw [parse_value, parse_valueF]
  simp only
  have htr : trim ('\'' :: s ++ ['\'']) = '\'' :: s ++ ['\''] :=
    trim_eq_self_of_ends rfl (getLast?_cons_concat _ _ _) (by decide) (by decide)
  rw [htr]
  rw [if_pos (Or.inl ⟨rfl, getLast?_cons_concat _ _ _⟩)]
  simp

theorem parse_value_bracket {t : Str} (hh : t.head? = some '[') (hl : t.getLast? = some ']')
    (htr : trim t = t) :
    parse_value t =
      .arr ((((getlinesBy ',' ((t.drop 1).dropLast)).map trim).filter (· ≠ [])).map
        parse_value) := by
  rw [parse_value, parse_valueF]
  simp only [htr]
  rw [if_neg (by
    rintro (⟨ha, -⟩ | ⟨ha, -⟩) <;> rw [hh] at ha <;> simp at ha)]
  rw [if_pos ⟨hh, hl⟩]
  congr 1
  apply List.map_congr_left
  intro x hx
  have hne : t ≠ [] := by rintro rfl; simp at hh
  have hlt : x.length < t.length := elem_length_lt hne hx
  exact (parse_value_fuel (by omega)).symm

/-! ### Numeric literals parse back -/

theorem mem_of_head? {α : Type} {l : List α} {c : α} (h : l.head? = some c) : c ∈ l := by
  cases l with
  | nil => simp at h
  | cons a tl =>
    injection h with h
    subst h
    simp

theorem mem_of_getLast? {α : Type} {l : List α} {c : α} (h : l.getLast? = some c) : c ∈ l := by
  induction l with
  | nil => simp at h
  | cons a tl ih =>
    cases tl with
    | nil =>
      simp only [List.getLast?_singleton, Option.some.injEq] at h
      simp [h]
    | cons b r =>
      rw [List.getLast?_cons_cons] at h
      exact List.mem_cons_of_mem a (ih h)

theorem numchar_ne {c k : Char} (hnum : c = '-' ∨ isDig c = true) (hk1 : isDig k = false)
    (hk2 : k ≠ '-') : c ≠ k := by
  rcases hnum with rfl | hd
  · exact fun he => hk2 he.symm
  · rintro rfl
    rw [hd] at hk1
    cases hk1

theorem isWs_false_of_numchar {c : Char} (h : c = '-' ∨ c = '.' ∨ isDig c = true) :
    isWs c = false := by
  rcases h with rfl | rfl | hd
  · decide
  · decide
  · have h48 : 48 ≤ c.toNat ∧ c.toNat ≤ 57 := by simpa [isDig] using hd
    simp only [isWs, Bool.or_eq_false_iff, decide_eq_false_iff_not]
    refine ⟨⟨⟨?_, ?_⟩, ?_⟩, ?_⟩ <;> (rintro rfl; revert h48; decide)

theorem lowerC_of_le (c : Char) (h : c.toNat < 65) : lowerC c = c := by
  unfold lowerC
  rw [if_neg (by omega)]

theorem head?_lowerStr (l : Str) : (lowerStr l).head? = l.head?.map lowerC := by
  cases l <;> rfl

theorem numstr_not_keyword {t : Str} {c : Char} (hc : t.head? = some c)
    (hnum : c = '-' ∨ isDig c = true) {w : Str} {d : Char} (hw : w.head? = some d)
    (hd1 : isDig d = false) (hd2 : d ≠ '-') (hd3 : d.toNat < 65 ∨ 90 < d.toNat) :
    lowerStr t ≠ w := by
  intro he
  have hh := congrArg List.head? he
  rw [head?_lowerStr, hc, hw] at hh
  simp only [Option.map_some', Option.some.injEq] at hh
  have hcn : c.toNat < 65 := by
    rcases hnum with rfl | hdg
    · decide
    · have h48 : 48 ≤ c.toNat ∧ c.toNat ≤ 57 := by simpa [isDig] using hdg
      omega
  rw [lowerC_of_le c hcn] at hh
  exact numchar_ne hnum hd1 hd2 hh

theorem intToStr_mem {n : Int} : ∀ c ∈ intToStr n, c = '-' ∨ isDig c = true := by
  intro c hc
  unfold intToStr at hc
  by_cases hn : n < 0
  · rw [if_pos hn] at hc
    rcases List.mem_cons.mp hc with rfl | hc
    · exact Or.inl rfl
    · exact Or.inr (isDig_of_mem_natToStr hc)
  · rw [if_neg hn] at hc
    exact Or.inr (isDig_of_mem_natToStr hc)

theorem intToStr_head {n : Int} : ∃ c, (intToStr n).head? = some c ∧
    (c = '-' ∨ isDig c = true) := by
  unfold intToStr
  by_cases hn : n < 0
  · exact ⟨'-', by rw [if_pos hn]; rfl, Or.inl rfl⟩
  · rw [if_neg hn]
    cases hh : natToStr n.toNat with
    | nil => exact absurd hh (natToStr_ne_nil _)
    | cons x r =>
      refine ⟨x, rfl, Or.inr ?_⟩
      exact isDig_of_mem_natToStr (by rw [hh]; simp)

theorem intToStr_ne_nil (n : Int) : intToStr n ≠ [] := by
  unfold intToStr
  by_cases hn : n < 0
  · rw [if_pos hn]; simp
  · rw [if_neg hn]; exact natToStr_ne_nil _

/-- All the non-numeric branch conditions of `parse_value` fail on a
string whose head is a sign or digit and whose characters are signs,
dots and digits. -/
theorem head_ne_char {t : Str} {c : Char} (hc : t.head? = some c)
    (hnum : c = '-' ∨ isDig c = true) :
    ∀ k, isDig k = false → k ≠ '-' → t.head? ≠ some k := by
  intro k hk1 hk2 he
  rw [hc] at he
  injection he with he
  exact numchar_ne hnum hk1 hk2 he

theorem parse_value_numeric_shape {t : Str} {c : Char} (hc : t.head? = some c)
    (hnum : c = '-' ∨ isDig c = true)
    (hmem : ∀ x ∈ t, x = '-' ∨ x = '.' ∨ isDig x = true) :
    parse_value t =
      (if '.' ∈ t then
        match stodM t with
        | some q => Value.real q
        | none => Value.str t
      else
        match stoiM t with
        | some n => Value.int n
        | none => Value.str t) := by
  have htr : trim t = t := by
    apply trim_eq_self
    · intro x hx
      exact isWs_false_of_numchar (hmem x (mem_of_head? hx))
    · intro x hx
      exact isWs_false_of_numchar (hmem x (mem_of_getLast? hx))
  rw [parse_value, parse_valueF]
  simp only [htr]
  rw [if_neg (by
    rintro (⟨ha, -⟩ | ⟨ha, -⟩)
    · exact head_ne_char hc hnum '\'' (by decide) (by decide) ha
    · exact head_ne_char hc hnum '"' (by decide) (by decide) ha)]
  rw [if_neg (by
    rintro ⟨ha, -⟩
    exact head_ne_char hc hnum '[' (by decide) (by decide) ha)]
  rw [if_neg (by
    rintro (hk | hk | hk)
    · exact numstr_not_keyword hc hnum (w := toStr "true") rfl (by decide) (by decide)
        (by decide) hk
    · exact numstr_not_keyword hc hnum (w := toStr "yes") rfl (by decide) (by decide)
        (by decide) hk
    · exact numstr_not_keyword hc hnum (w := toStr "on") rfl (by decide) (by decide)
        (by decide) hk)]
  rw [if_neg (by
    rintro (hk | hk | hk)
    · exact numstr_not_keyword hc hnum (w := toStr "false") rfl (by decide) (by decide)
        (by decide) hk
    · exact numstr_not_keyword hc hnum (w := toStr "no") rfl (by decide) (by decide)
        (by decide) hk
    · exact numstr_not_keyword hc hnum (w := toStr "off") rfl (by decide) (by decide)
        (by decide) hk)]

theorem parse_value_intToStr {n : Int} (h1 : -(2 ^ 31) ≤ n) (h2 : n < 2 ^ 31) :
    parse_value (intToStr n) = .int n := by
  obtain ⟨c, hc, hnum⟩ := intToStr_head (n := n)
  rw [parse_value_numeric_shape hc hnum
    (fun x hx => (intToStr_mem x hx).elim (fun h => Or.inl h) (fun h => Or.inr (Or.inr h)))]
  rw [if_neg (by
    intro hdot
    rcases intToStr_mem '.' hdot with h | h
    · exact absurd h (by decide)
    · exact absurd h (by decide))]
  rw [stoiM_intToStr h1 h2]

theorem realToStr_mem {q : Rat} : ∀ c ∈ realToStr q, c = '-' ∨ c = '.' ∨ isDig c = true := by
  intro c hc
  rw [realToStr_eq] at hc
  rcases List.mem_append.mp hc with hc | hc
  · rcases List.mem_append.mp hc with hc | hc
    · by_cases hn : round (q * 1000000) < 0
      · rw [if_pos hn] at hc
        simp only [List.mem_singleton] at hc
        exact Or.inl hc
      · rw [if_neg hn] at hc
        simp at hc
    · exact Or.inr (Or.inr (isDig_of_mem_natToStr hc))
  · rcases List.mem_cons.mp hc with rfl | hc
    · exact Or.inr (Or.inl rfl)
    · exact Or.inr (Or.inr (isDig_pad_all c hc))

theorem realToStr_head {q : Rat} : ∃ c, (realToStr q).head? = some c ∧
    (c = '-' ∨ isDig c = true) := by
  rw [realToStr_eq]
  by_cases hn : round (q * 1000000) < 0
  · rw [if_pos hn]
    exact ⟨'-', rfl, Or.inl rfl⟩
  · rw [if_neg hn, List.nil_append]
    cases hh : natToStr ((round (q * 1000000)).natAbs / 1000000) with
    | nil => exact absurd hh (natToStr_ne_nil _)
    | cons x r =>
      refine ⟨x, rfl, Or.inr ?_⟩
      exact isDig_of_mem_natToStr (by rw [hh]; simp)

theorem realToStr_has_dot (q : Rat) : '.' ∈ realToStr q := by
  rw [realToStr_eq]
  simp

theorem parse_value_realToStr {q : Rat} (hden : (q * 1000000).den = 1) :
    parse_value (realToStr q) = .real q := by
  obtain ⟨c, hc, hnum⟩ := realToStr_head (q := q)
  rw [parse_value_numeric_shape hc hnum realToStr_mem]
  rw [if_pos (realToStr_has_dot q)]
  rw [stodM_realToStr hden]

theorem stoiM_none_of_no_digit {t : Str} (h : ∀ c ∈ t, isDig c = false) :
    stoiM t = none := by
  unfold stoiM
  have hsub1 : List.Sublist (t.dropWhile isCppSpace) t := List.dropWhile_sublist _
  have hsub2 : List.Sublist (signSplit (t.dropWhile isCppSpace)).2 t := by
    unfold signSplit
    split
    · rename_i r heq
      exact ((heq ▸ List.Sublist.cons _ (List.Sublist.refl r)).trans hsub1)
    · rename_i r heq
      exact ((heq ▸ List.Sublist.cons _ (List.Sublist.refl r)).trans hsub1)
    · exact hsub1
  have htw : (signSplit (t.dropWhile isCppSpace)).2.takeWhile isDig = [] := by
    cases hs : (signSplit (t.dropWhile isCppSpace)).2 with
    | nil => rfl
    | cons a r =>
      rw [List.takeWhile_cons, if_neg (by
        have ha : a ∈ t := hsub2.subset (by rw [hs]; simp)
        simp [h a ha])]
  simp [htw]

/-! ### Goodness predicates for round-tripping documents -/

/-- Conditions on a Text value under which the writer's output re-parses
to the same value: no single quote (the writer's quoting style), no line
break, and neither comment marker. -/
def textOk (s : Str) : Bool :=
  decide ('\'' ∉ s) && decide ('\n' ∉ s) && !has2 '/' '/' s && !has2 '/' '*' s

/-- Conditions on an array element: a scalar (nested arrays are split at
their commas by the re-parser), with Text additionally comma-free. -/
def elemOk : Value → Bool
  | .str s => textOk s && decide (',' ∉ s)
  | .int n => decide (-(2 ^ 31) ≤ n) && decide (n < 2 ^ 31)
  | .real q => decide ((q * 1000000).den = 1)
  | .bool _ => true
  | .arr _ => false

/-- Conditions on a top-level value, together with enough writer fuel. -/
def goodV (fuel : Nat) : Value → Bool
  | .str s => decide (1 ≤ fuel) && textOk s
  | .int n => decide (1 ≤ fuel) && decide (-(2 ^ 31) ≤ n) && decide (n < 2 ^ 31)
  | .real q => decide (1 ≤ fuel) && decide ((q * 1000000).den = 1)
  | .bool _ => decide (1 ≤ fuel)
  | .arr xs => decide (2 ≤ fuel) && xs.all elemOk

/-- Conditions on a property key: non-empty, trim-stable, and free of
line breaks, `=`, a leading `^`, and comment markers. -/
def keyOk (k : Str) : Bool :=
  decide (k ≠ []) && decide (trim k = k) && decide ('\n' ∉ k) && decide ('=' ∉ k) &&
    decide (k.head? ≠ some '^') && !has2 '/' '/' k && !has2 '/' '*' k

/-- Conditions on a section name: non-empty, trim-stable, and free of
line breaks and comment markers. -/
def nameOk (nm : Str) : Bool :=
  decide (nm ≠ []) && decide (trim nm = nm) && decide ('\n' ∉ nm) &&
    !has2 '/' '/' nm && !has2 '/' '*' nm

/-- Conditions on a document under which the writer's output re-parses to
the same tree (with fuel exceeding the nesting depth): every key and
value good, keys and child names unique per node, and every child
section non-empty (a section with no properties and no children emits
only its header line, which the parser does not materialise). -/
def goodS : Nat → Sect → Bool
  | 0, _ => false
  | fuel + 1, .mk vals subs =>
    vals.all (fun kv => keyOk kv.1 && goodV (fuel + 1) kv.2) &&
    decide ((vals.map Prod.fst).Nodup) &&
    subs.all (fun ns => nameOk ns.1 &&
      (!ns.2.vals.isEmpty || !ns.2.subs.isEmpty) && goodS fuel ns.2) &&
    decide ((subs.map Prod.fst).Nodup)

/-! ### Cleanliness helpers -/

theorem has2_false_of_not_mem {c1 c2 : Char} {l : Str} (h : c1 ∉ l) :
    has2 c1 c2 l = false := by
  induction l with
  | nil => rfl
  | cons a tl ih =>
    cases tl with
    | nil => rfl
    | cons b r =>
      rw [has2]
      simp only [Bool.or_eq_false_iff, Bool.and_eq_false_iff]
      constructor
      · left
        simp only [decide_eq_false_iff_not]
        rintro rfl
        exact h (by simp)
      · exact ih (fun hm => h (List.mem_cons_of_mem a hm))

theorem mem_joinCS {ws : List Str} {c : Char} (h : c ∈ joinCS ws) :
    (∃ w ∈ ws, c ∈ w) ∨ c = ',' ∨ c = ' ' := by
  induction ws with
  | nil => simp [joinCS] at h
  | cons w rest ih =>
    cases rest with
    | nil =>
      rw [joinCS] at h
      exact Or.inl ⟨w, by simp, h⟩
    | cons y r =>
      rw [joinCS] at h
      rcases List.mem_append.mp h with h | h
      · exact Or.inl ⟨w, by simp, h⟩
      · rcases List.mem_cons.mp h with rfl | h
        · exact Or.inr (Or.inl rfl)
        · rcases List.mem_cons.mp h with rfl | h
          · exact Or.inr (Or.inr rfl)
          · rcases ih h with ⟨w2, hw2, hc⟩ | h
            · exact Or.inl ⟨w2, by simp [hw2], hc⟩
            · exact Or.inr h

theorem has2_joinCS {c1 c2 : Char} (h1 : c1 ≠ ',') (h2 : c1 ≠ ' ') (h3 : c2 ≠ ',')
    {ws : List Str} (h : ∀ x ∈ ws, has2 c1 c2 x = false) :
    has2 c1 c2 (joinCS ws) = false := by
  induction ws with
  | nil => rfl
  | cons w rest ih =>
    cases rest with
    | nil => exact h w (by simp)
    | cons y r =>
      rw [joinCS, has2_append]
      have hrest : has2 c1 c2 (joinCS (y :: r)) = false := ih (fun x hx => h x (by simp [hx]))
      have hmid : has2 c1 c2 (',' :: ' ' :: joinCS (y :: r)) = false := by
        rw [has2]
        have ha : (decide (',' = c1) && decide (' ' = c2)) = false := by
          simp only [Bool.and_eq_false_iff, decide_eq_false_iff_not]
          exact Or.inl fun hy => h1 hy.symm
        have hb : has2 c1 c2 (' ' :: joinCS (y :: r)) = false := by
          cases hj : joinCS (y :: r) with
          | nil => rfl
          | cons j js =>
            rw [has2]
            have hc : (decide (' ' = c1) && decide (j = c2)) = false := by
              simp only [Bool.and_eq_false_iff, decide_eq_false_iff_not]
              exact Or.inl fun hy => h2 hy.symm
            rw [hc, ← hj, hrest]
            rfl
        rw [ha, hb]
        rfl
      have hbd : (decide (w.getLast? = some c1) &&
          decide ((',' :: ' ' :: joinCS (y :: r)).head? = some c2)) = false := by
        simp only [Bool.and_eq_false_iff, decide_eq_false_iff_not, List.head?_cons,
          Option.some.injEq]
        exact Or.inr fun hy => h3 hy.symm
      rw [h w (by simp), hmid, hbd]
      rfl

theorem joinCS_cons_ne_nil {w : Str} (rest : List Str) (hw : w ≠ []) :
    joinCS (w :: rest) ≠ [] := by
  cases rest with
  | nil => exact hw
  | cons y r =>
    rw [joinCS]
    simp [hw]

theorem splitCh_joinCS : ∀ {rest : List Str} {w : Str}, (∀ x ∈ w :: rest, ',' ∉ x) →
    splitCh ',' (joinCS (w :: rest)) = w :: rest.map (' ' :: ·) := by
  intro rest
  induction rest with
  | nil =>
    intro w h
    rw [joinCS]
    exact splitCh_of_not_mem (h w (by simp))
  | cons y r ih =>
    intro w h
    rw [joinCS, splitCh_append_sep (h w (by simp))]
    rw [splitCh_cons_ne _ (by decide)]
    rw [@ih y (fun x hx => h x (by
      rcases List.mem_cons.mp hx with rfl | hx
      · simp
      · simp [hx]))]
    simp

/-! ### The written form of a good value parses back -/

/-- Properties of the rendered form `w` of a value `v` needed to embed it
in a line (or an array literal) and re-parse it: correctness of the
round trip, non-emptiness, trim-stability, and freedom from line breaks,
comment markers and (for array elements) commas. -/
def wvProps (noComma : Bool) (w : Str) (v : Value) : Prop :=
  parse_value w = v ∧ w ≠ [] ∧ trim w = w ∧ '\n' ∉ w ∧
    has2 '/' '/' w = false ∧ has2 '/' '*' w = false ∧ (noComma = true → ',' ∉ w)

theorem not_mem_of_numchar {l : Str} (hmem : ∀ c ∈ l, c = '-' ∨ c = '.' ∨ isDig c = true)
    {k : Char} (h1 : k ≠ '-') (h2 : k ≠ '.') (h3 : isDig k = false) : k ∉ l := by
  intro hk
  rcases hmem k hk with rfl | rfl | hd
  · exact h1 rfl
  · exact h2 rfl
  · rw [hd] at h3; cases h3

theorem wv_quoted {s : Str} (h : textOk s = true) (hc : Bool) (hcs : hc = true → ',' ∉ s) :
    wvProps hc ('\'' :: s ++ ['\'']) (.str s) := by
  have hx : '\'' ∉ s ∧ '\n' ∉ s ∧ has2 '/' '/' s = false ∧ has2 '/' '*' s = false := by
    have hy := h
    simp only [textOk, Bool.and_eq_true, decide_eq_true_eq, Bool.not_eq_true'] at hy
    exact ⟨hy.1.1.1, hy.1.1.2, hy.1.2, hy.2⟩
  refine ⟨parse_value_quoted s, by simp, ?_, ?_, ?_, ?_, ?_⟩
  · exact trim_eq_self_of_ends rfl (getLast?_cons_concat _ _ _) (by decide) (by decide)
  · intro hm
    rcases List.mem_cons.mp hm with hm | hm
    · exact absurd hm (by decide)
    · rcases List.mem_append.mp hm with hm | hm
      · exact hx.2.1 hm
      · simp only [List.mem_singleton] at hm
        exact absurd hm (by decide)
  · rw [show ('\'' :: s ++ ['\'']) = ('\'' :: s) ++ ['\''] by simp, has2_append,
      show ('\'' :: s) = ['\''] ++ s by simp, has2_append]
    rw [hx.2.2.1]
    simp [has2]
  · rw [show ('\'' :: s ++ ['\'']) = ('\'' :: s) ++ ['\''] by simp, has2_append,
      show ('\'' :: s) = ['\''] ++ s by simp, has2_append]
    rw [hx.2.2.2]
    simp [has2]
  · intro hcc hm
    rcases List.mem_cons.mp hm with hm | hm
    · exact absurd hm (by decide)
    · rcases List.mem_append.mp hm with hm | hm
      · exact hcs hcc hm
      · simp only [List.mem_singleton] at hm
        exact absurd hm (by decide)

theorem wv_int {n : Int} (h1 : -(2 ^ 31) ≤ n) (h2 : n < 2 ^ 31) (hc : Bool) :
    wvProps hc (intToStr n) (.int n) := by
  have hmem : ∀ c ∈ intToStr n, c = '-' ∨ c = '.' ∨ isDig c = true :=
    fun c hcm => (intToStr_mem c hcm).elim Or.inl (fun hd => Or.inr (Or.inr hd))
  refine ⟨parse_value_intToStr h1 h2, intToStr_ne_nil n, ?_, ?_, ?_, ?_, ?_⟩
  · exact trim_eq_self (fun c hch => isWs_false_of_numchar (hmem c (mem_of_head? hch)))
      (fun c hch => isWs_false_of_numchar (hmem c (mem_of_getLast? hch)))
  · exact not_mem_of_numchar hmem (by decide) (by decide) (by decide)
  · exact has2_false_of_not_mem (not_mem_of_numchar hmem (by decide) (by decide) (by decide))
  · exact has2_false_of_not_mem (not_mem_of_numchar hmem (by decide) (by decide) (by decide))
  · exact fun _ => not_mem_of_numchar hmem (by decide) (by decide) (by decide)

theorem wv_real {q : Rat} (h : (q * 1000000).den = 1) (hc : Bool) :
    wvProps hc (realToStr q) (.real q) := by
  refine ⟨parse_value_realToStr h, ?_, ?_, ?_, ?_, ?_, ?_⟩
  · rw [realToStr_eq]
    intro hnil
    have := congrArg List.length hnil
    simp only [List.length_append, List.length_cons, List.length_nil] at this
    omega
  · exact trim_eq_self (fun c hch => isWs_false_of_numchar (realToStr_mem c (mem_of_head? hch)))
      (fun c hch => isWs_false_of_numchar (realToStr_mem c (mem_of_getLast? hch)))
  · exact not_mem_of_numchar realToStr_mem (by decide) (by decide) (by decide)
  · exact has2_false_of_not_mem
      (not_mem_of_numchar realToStr_mem (by decide) (by decide) (by decide))
  · exact has2_false_of_not_mem
      (not_mem_of_numchar realToStr_mem (by decide) (by decide) (by decide))
  · exact fun _ => not_mem_of_numchar realToStr_mem (by decide) (by decide) (by decide)

theorem wv_bool (b : Bool) (hc : Bool) :
    wvProps hc (if b then toStr "true" else toStr "false") (.bool b) := by
  cases b
  · exact ⟨rfl, by decide, by decide, by decide, rfl, rfl, fun _ => by decide⟩
  · exact ⟨rfl, by decide, by decide, by decide, rfl, rfl, fun _ => by decide⟩

theorem write_value_elem {g : Nat} {v : Value} (h : elemOk v = true) :
    wvProps true (write_value (g + 1) v) v := by
  cases v with
  | str s =>
    have hx : textOk s = true ∧ ',' ∉ s := by simpa [elemOk] using h
    exact wv_quoted hx.1 true (fun _ => hx.2)
  | int n =>
    have hx : -(2 ^ 31) ≤ n ∧ n < 2 ^ 31 := by simpa [elemOk] using h
    exact wv_int hx.1 hx.2 true
  | real q =>
    have hx : (q * 1000000).den = 1 := by simpa [elemOk] using h
    exact wv_real hx true
  | bool b => exact wv_bool b true
  | arr xs => simp [elemOk] at h

theorem getlinesBy_joinCS {w1 : Str} {wr : List Str}
    (hne : ∀ x ∈ w1 :: wr, x ≠ []) (hnc : ∀ x ∈ w1 :: wr, ',' ∉ x) :
    getlinesBy ',' (joinCS (w1 :: wr)) = w1 :: wr.map (' ' :: ·) := by
  unfold getlinesBy
  rw [if_neg (joinCS_cons_ne_nil wr (hne w1 (by simp)))]
  rw [splitCh_joinCS hnc]
  rw [if_neg (by
    intro hl
    have hmem := mem_of_getLast? hl
    rcases List.mem_cons.mp hmem with hm | hm
    · exact hne w1 (by simp) hm.symm
    · rcases List.mem_map.mp hm with ⟨x, -, hx⟩
      simp at hx)]

theorem map_eq_self_of {α : Type} {l : List α} {f : α → α} (h : ∀ x ∈ l, f x = x) :
    l.map f = l := by
  induction l with
  | nil => rfl
  | cons a tl ih =>
    rw [List.map_cons, h a (by simp), ih (fun x hxx => h x (by simp [hxx]))]

theorem write_value_good : ∀ {fuel : Nat} {v : Value}, goodV fuel v = true →
    wvProps false (write_value fuel v) v := by
  intro fuel v h
  match fuel, v with
  | 0, v => cases v <;> simp [goodV] at h
  | g + 1, .str s => exact wv_quoted (by simpa [goodV] using h) false (fun hcc => by cases hcc)
  | g + 1, .int n =>
    have hx : -(2 ^ 31) ≤ n ∧ n < 2 ^ 31 := by simpa [goodV] using h
    exact wv_int hx.1 hx.2 false
  | g + 1, .real q => exact wv_real (by simpa [goodV] using h) false
  | g + 1, .bool b => exact wv_bool b false
  | g + 1, .arr xs =>
    have hx : 2 ≤ g + 1 ∧ ∀ x ∈ xs, elemOk x = true := by
      simpa [goodV, List.all_eq_true] using h
    obtain ⟨g2, rfl⟩ : ∃ g2, g = g2 + 1 := ⟨g - 1, by omega⟩
    have hprops : ∀ x ∈ xs, wvProps true (write_value (g2 + 1) x) x :=
      fun x hxx => write_value_elem (hx.2 x hxx)
    have hwmem : ∀ w ∈ xs.map (write_value (g2 + 1)),
        w ≠ [] ∧ trim w = w ∧ '\n' ∉ w ∧
          has2 '/' '/' w = false ∧ has2 '/' '*' w = false ∧ ',' ∉ w := by
      intro w hw
      rcases List.mem_map.mp hw with ⟨x, hxx, rfl⟩
      obtain ⟨hp, hn, ht, hnl, hs1, hs2, hcm⟩ := hprops x hxx
      exact ⟨hn, ht, hnl, hs1, hs2, hcm rfl⟩
    have hwrite : write_value (g2 + 1 + 1) (.arr xs) =
        '[' :: joinCS (xs.map (write_value (g2 + 1))) ++ [']'] := rfl
    rw [hwrite]
    have htrim : trim ('[' :: joinCS (xs.map (write_value (g2 + 1))) ++ [']']) =
        '[' :: joinCS (xs.map (write_value (g2 + 1))) ++ [']'] :=
      trim_eq_self_of_ends rfl (getLast?_cons_concat _ _ _) (by decide) (by decide)
    refine ⟨?_, by simp, htrim, ?_, ?_, ?_, fun hcc => by cases hcc⟩
    · have hb := @parse_value_bracket ('[' :: joinCS (xs.map (write_value (g2 + 1))) ++ [']'])
        rfl (getLast?_cons_concat _ _ _) htrim
      rw [hb]
      have hdc : (('[' :: joinCS (xs.map (write_value (g2 + 1))) ++ [']']).drop 1).dropLast =
          joinCS (xs.map (write_value (g2 + 1))) := by
        simp
      rw [hdc]
      cases xs with
      | nil => rfl
      | cons x rest =>
        rw [List.map_cons]
        rw [getlinesBy_joinCS
          (by rw [← List.map_cons]; exact fun w hw => (hwmem w hw).1)
          (by rw [← List.map_cons]; exact fun w hw => (hwmem w hw).2.2.2.2.2)]
        have hmt : (List.map trim
            (write_value (g2 + 1) x :: (rest.map (write_value (g2 + 1))).map (' ' :: ·))) =
            write_value (g2 + 1) x :: rest.map (write_value (g2 + 1)) := by
          rw [List.map_cons]
          congr 1
          · exact (hwmem _ (by simp)).2.1
          · rw [List.map_map]
            exact map_eq_self_of (fun w hw => by
              simp only [Function.comp_apply]
              rw [trim_space_cons]
              exact (hwmem w (by simp [hw])).2.1)
        rw [hmt]
        rw [List.filter_eq_self.mpr (by
          intro w hw
          simp only [decide_eq_true_eq, ne_eq]
          rw [← List.map_cons] at hw
          exact (hwmem w hw).1)]
        rw [← List.map_cons, List.map_map]
        congr 1
        exact map_eq_self_of (fun y hy => (hprops y hy).1)
    · intro hm
      rcases List.mem_cons.mp hm with hm | hm
      · exact absurd hm (by decide)
      · rcases List.mem_append.mp hm with hm | hm
        · rcases mem_joinCS hm with ⟨w, hw, hcw⟩ | hm
          · exact (hwmem w hw).2.2.1 hcw
          · rcases hm with hm | hm <;> exact absurd hm (by decide)
        · simp only [List.mem_singleton] at hm
          exact absurd hm (by decide)
    · rw [show ('[' :: joinCS (xs.map (write_value (g2 + 1))) ++ [']']) =
          ('[' :: joinCS (xs.map (write_value (g2 + 1)))) ++ [']'] by simp, has2_append,
        show ('[' :: joinCS (xs.map (write_value (g2 + 1)))) =
          ['['] ++ joinCS (xs.map (write_value (g2 + 1))) by simp, has2_append]
      rw [has2_joinCS (by decide) (by decide) (by decide)
        (fun w hw => (hwmem w hw).2.2.2.1)]
      simp [has2]
    · rw [show ('[' :: joinCS (xs.map (write_value (g2 + 1))) ++ [']']) =
          ('[' :: joinCS (xs.map (write_value (g2 + 1)))) ++ [']'] by simp, has2_append,
        show ('[' :: joinCS (xs.map (write_value (g2 + 1)))) =
          ['['] ++ joinCS (xs.map (write_value (g2 + 1))) by simp, has2_append]
      rw [has2_joinCS (by decide) (by decide) (by decide)
        (fun w hw => (hwmem w hw).2.2.2.2.1)]
      simp [has2]

/-! ### The writer output as a list of lines -/

/-- The `key = value` lines of `write_values`, without the newlines. -/
def valueLines (fuel : Nat) (vals : List (Str × Value)) (ind : Nat) : List Str :=
  vals.map (fun kv => List.replicate ind ' ' ++ kv.1 ++ toStr " = " ++ write_value fuel kv.2)

mutual

/-- The lines of `write_section`, without the newlines. -/
def sectionLines : Nat → Sect → List Str → Nat → List Str
  | 0, _, _, _ => []
  | fuel + 1, .mk vals subs, path, indent =>
    (if path = [] then []
     else [List.replicate (indent * 4) ' ' ++ List.replicate (indent + 1) '^' ++
       ' ' :: path.getLastD []]) ++
    valueLines (fuel + 1) vals ((indent + (if path = [] then 0 else 1)) * 4) ++
    subsLines fuel subs path (indent + (if path = [] then 0 else 1)) (path = [])
  termination_by fuel _ _ _ => (fuel, 0)

/-- The lines of `write_subs`, without the newlines. -/
def subsLines : Nat → List (Str × Sect) → List Str → Nat → Bool → List Str
  | _, [], _, _, _ => []
  | fuel, (n, sub) :: rest, path, indent, first =>
    (if first then [] else [[]]) ++ sectionLines fuel sub (path ++ [n]) indent ++
      subsLines fuel rest path indent false
  termination_by fuel l _ _ _ => (fuel, l.length + 1)

end

/-- Join lines with a terminating newline each, as the writer emits them. -/
def joinNl (ls : List Str) : Str := (ls.map (· ++ ['\n'])).flatten

theorem joinNl_append (a b : List Str) : joinNl (a ++ b) = joinNl a ++ joinNl b := by
  simp [joinNl]

theorem joinNl_cons (l : Str) (ls : List Str) :
    joinNl (l :: ls) = l ++ '\n' :: joinNl ls := by
  simp [joinNl]

theorem joinNl_nil : joinNl [] = [] := rfl

theorem write_values_eq (fuel : Nat) (vals : List (Str × Value)) (ind : Nat) :
    write_values fuel vals ind = joinNl (valueLines fuel vals ind) := by
  induction vals with
  | nil => rfl
  | cons kv rest ih =>
    unfold write_values at ih ⊢
    unfold valueLines at ih ⊢
    rw [List.map_cons, List.map_cons, List.flatten_cons, joinNl_cons, ih]
    simp

theorem intercalate_single (c : Char) (x : Str) (xs : List Str) :
    List.intercalate [c] (x :: xs) = x ++ (xs.map (fun b => c :: b)).flatten := by
  induction xs generalizing x with
  | nil => simp [List.intercalate]
  | cons y r ih =>
    have h1 : List.intercalate [c] (x :: y :: r) =
        x ++ (c :: List.intercalate [c] (y :: r)) := rfl
    rw [h1, ih y]
    simp

theorem write_subs_eq_aux (fuel : Nat)
    (fih : ∀ s path indent, write_section fuel s path indent =
      joinNl (sectionLines fuel s path indent)) :
    ∀ (l : List (Str × Sect)) (path : List Str) (indent : Nat),
      ((l.map (fun ns => write_section fuel ns.2 (path ++ [ns.1]) indent)).map
        (fun b => '\n' :: b)).flatten = joinNl (subsLines fuel l path indent false) := by
  intro l
  induction l with
  | nil =>
    intro path indent
    rw [subsLines]
    rfl
  | cons ns rest ih =>
    intro path indent
    obtain ⟨n, sub⟩ := ns
    rw [subsLines]
    simp only [List.map_cons, List.flatten_cons, if_neg (by simp : ¬ (false = true))]
    rw [joinNl_append, joinNl_append]
    rw [← fih, ← ih]
    simp [joinNl]

theorem write_section_eq : ∀ (fuel : Nat) (s : Sect) (path : List Str) (indent : Nat),
    write_section fuel s path indent = joinNl (sectionLines fuel s path indent) := by
  intro fuel
  induction fuel with
  | zero =>
    intro s path indent
    rw [sectionLines]
    rfl
  | succ f ih =>
    intro s path indent
    obtain ⟨vals, subs⟩ := s
    rw [write_section, sectionLines]
    rw [joinNl_append, joinNl_append]
    rw [write_values_eq]
    congr 1
    · by_cases hp : path = []
      · simp [hp, joinNl]
      · simp [hp, joinNl]
    congr 1
    by_cases hp : path = []
    · subst hp
      simp only [eq_self_iff_true, if_true, decide_True, Nat.add_zero]
      cases subs with
      | nil =>
        rw [subsLines]
        simp [List.intercalate, joinNl]
      | cons ns rest =>
        obtain ⟨n, sub⟩ := ns
        rw [List.map_cons, intercalate_single, write_subs_eq_aux f ih rest [] indent,
          ih, subsLines, if_pos rfl, List.nil_append, joinNl_append]
        simp
    · simp only [if_neg hp]
      rw [show (decide (path = [])) = false by simp [hp]]
      exact write_subs_eq_aux f ih subs path _

theorem splitCh_joinNl {ls : List Str} (h : ∀ l ∈ ls, '\n' ∉ l) :
    splitCh '\n' (joinNl ls) = ls ++ [[]] := by
  induction ls with
  | nil => rfl
  | cons l rest ih =>
    rw [joinNl_cons, splitCh_append_sep (h l (by simp))]
    rw [ih (fun x hx => h x (by simp [hx]))]
    rfl

theorem getlines_joinNl {ls : List Str} (h : ∀ l ∈ ls, '\n' ∉ l) :
    getlinesBy '\n' (joinNl ls) = ls := by
  cases ls with
  | nil => rfl
  | cons l rest =>
    unfold getlinesBy
    rw [if_neg (by
      rw [joinNl_cons]
      intro hnil
      have := congrArg List.length hnil
      simp at this)]
    rw [splitCh_joinNl h]
    rw [if_pos (by rw [List.getLast?_append]; rfl)]
    rw [List.dropLast_concat]

theorem has2_joinNl {c1 c2 : Char} (h1 : c1 ≠ '\n') (h2 : c2 ≠ '\n') {ls : List Str}
    (h : ∀ l ∈ ls, has2 c1 c2 l = false) : has2 c1 c2 (joinNl ls) = false := by
  induction ls with
  | nil => rfl
  | cons l rest ih =>
    rw [joinNl_cons, has2_append]
    have hrest : has2 c1 c2 ('\n' :: joinNl rest) = false := by
      cases hj : joinNl rest with
      | nil => rfl
      | cons j js =>
        rw [has2]
        have hc : (decide ('\n' = c1) && decide (j = c2)) = false := by
          simp only [Bool.and_eq_false_iff, decide_eq_false_iff_not]
          exact Or.inl fun hy => h1 hy.symm
        rw [hc, ← hj, ih (fun x hx => h x (by simp [hx]))]
        rfl
    have hbd : (decide (l.getLast? = some c1) &&
        decide (('\n' :: joinNl rest).head? = some c2)) = false := by
      simp only [Bool.and_eq_false_iff, decide_eq_false_iff_not, List.head?_cons,
        Option.some.injEq]
      exact Or.inr fun hy => h2 hy.symm
    rw [h l (by simp), hrest, hbd]
    rfl

theorem remove_multiline_comments_clean {w : Str} (h : has2 '/' '*' w = false) :
    remove_multiline_comments w = w := by
  unfold remove_multiline_comments removeMLF
  rw [show toStr "/*" = ['/', '*'] from rfl, breakOn_nil_of_has2_false h]

theorem remove_line_comments_clean {w : Str} (h : has2 '/' '/' w = false) :
    remove_line_comments w = w := by
  unfold remove_line_comments
  rw [show toStr "//" = ['/', '/'] from rfl, breakOn_nil_of_has2_false h]

/-! ### Cleanliness of writer lines -/

/-- A writer line is clean when it contains no line break and neither
comment marker, so the preprocessor and comment stripper leave it
untouched. -/
def lineClean (l : Str) : Prop :=
  '\n' ∉ l ∧ has2 '/' '/' l = false ∧ has2 '/' '*' l = false

theorem lineClean_nil : lineClean [] := ⟨by simp, rfl, rfl⟩

theorem has2_cons_ne {c1 c2 x : Char} (h : x ≠ c1) (l : Str) :
    has2 c1 c2 (x :: l) = has2 c1 c2 l := by
  cases l with
  | nil => rfl
  | cons y r =>
    rw [has2]
    simp [h]

theorem has2_replicate_prefix {c1 c2 x : Char} (h : x ≠ c1) (k : Nat) (l : Str) :
    has2 c1 c2 (List.replicate k x ++ l) = has2 c1 c2 l := by
  induction k with
  | zero => rfl
  | succ kk ih => rw [List.replicate_succ, List.cons_append, has2_cons_ne h, ih]

theorem lineClean_cons {c : Char} {l : Str} (h1 : c ≠ '\n') (h2 : c ≠ '/')
    (hl : lineClean l) : lineClean (c :: l) := by
  obtain ⟨a, b, d⟩ := hl
  refine ⟨?_, ?_, ?_⟩
  · simp only [List.mem_cons]
    rintro (h | h)
    · exact h1 h.symm
    · exact a h
  · rw [has2_cons_ne h2, b]
  · rw [has2_cons_ne h2, d]

theorem lineClean_replicate {k : Nat} {c : Char} {l : Str} (h1 : c ≠ '\n') (h2 : c ≠ '/')
    (hl : lineClean l) : lineClean (List.replicate k c ++ l) := by
  induction k with
  | zero => exact hl
  | succ kk ih =>
    rw [List.replicate_succ, List.cons_append]
    exact lineClean_cons h1 h2 ih

theorem lineClean_append_head {a b : Str} (ha : lineClean a) (hb : lineClean b)
    (h1 : b.head? ≠ some '/') (h2 : b.head? ≠ some '*') : lineClean (a ++ b) := by
  obtain ⟨a1, a2, a3⟩ := ha
  obtain ⟨b1, b2, b3⟩ := hb
  refine ⟨?_, ?_, ?_⟩
  · simp only [List.mem_append]
    rintro (h | h)
    · exact a1 h
    · exact b1 h
  · rw [has2_append, a2, b2]
    simp only [Bool.false_or, Bool.or_eq_false_iff, Bool.and_eq_false_iff,
      decide_eq_false_iff_not]
    exact Or.inr h1
  · rw [has2_append, a3, b3]
    simp only [Bool.false_or, Bool.or_eq_false_iff, Bool.and_eq_false_iff,
      decide_eq_false_iff_not]
    exact Or.inr h2

theorem lineClean_of_keyOk {k : Str} (h : keyOk k = true) : lineClean k := by
  simp only [keyOk, Bool.and_eq_true, decide_eq_true_eq, Bool.not_eq_true'] at h
  exact ⟨h.1.1.1.1.2, h.1.2, h.2⟩

theorem lineClean_of_nameOk {nm : Str} (h : nameOk nm = true) : lineClean nm := by
  simp only [nameOk, Bool.and_eq_true, decide_eq_true_eq, Bool.not_eq_true'] at h
  exact ⟨h.1.1.2, h.1.2, h.2⟩

theorem lineClean_of_wv {w : Str} {v : Value} (h : wvProps false w v) : lineClean w :=
  ⟨h.2.2.2.1, h.2.2.2.2.1, h.2.2.2.2.2.1⟩

/-- The full `key = value` line emitted by `write_values` is clean. -/
theorem lineClean_assign {key w : Str} {v : Value} (ind : Nat)
    (hkey : keyOk key = true) (hw : wvProps false w v) :
    lineClean (List.replicate ind ' ' ++ key ++ toStr " = " ++ w) := by
  have hrest : lineClean (' ' :: '=' :: ' ' :: w) :=
    lineClean_cons (by decide) (by decide)
      (lineClean_cons (by decide) (by decide)
        (lineClean_cons (by decide) (by decide) (lineClean_of_wv hw)))
  have hk : lineClean (key ++ ' ' :: '=' :: ' ' :: w) :=
    lineClean_append_head (lineClean_of_keyOk hkey) hrest (by simp) (by simp)
  have : List.replicate ind ' ' ++ key ++ toStr " = " ++ w =
      List.replicate ind ' ' ++ (key ++ ' ' :: '=' :: ' ' :: w) := by
    simp [toStr]
  rw [this]
  exact lineClean_replicate (by decide) (by decide) hk

/-- The section header line emitted by `write_section` is clean. -/
theorem lineClean_header {name : Str} (ind d : Nat) (hname : nameOk name = true) :
    lineClean (List.replicate ind ' ' ++ List.replicate d '^' ++ ' ' :: name) := by
  have h1 : lineClean (' ' :: name) :=
    lineClean_cons (by decide) (by decide) (lineClean_of_nameOk hname)
  have h2 : lineClean (List.replicate d '^' ++ ' ' :: name) :=
    lineClean_replicate (by decide) (by decide) h1
  have : List.replicate ind ' ' ++ List.replicate d '^' ++ ' ' :: name =
      List.replicate ind ' ' ++ (List.replicate d '^' ++ ' ' :: name) := by simp
  rw [this]
  exact lineClean_replicate (by decide) (by decide) h2

/-! ### Processing of writer lines -/

theorem getLast?_cons_of_ne_nil {α : Type} {x : α} {l : List α} (h : l ≠ []) :
    (x :: l).getLast? = l.getLast? := by
  cases l with
  | nil => exact absurd rfl h
  | cons y r => exact List.getLast?_cons_cons

theorem getLast?_append_right {a b : Str} (h : b ≠ []) :
    (a ++ b).getLast? = b.getLast? := by
  induction a with
  | nil => rfl
  | cons x tl ih =>
    rw [List.cons_append]
    rw [getLast?_cons_of_ne_nil (by simp [h]), ih]

/-- The trimmed, comment-stripped form of a writer assignment line. -/
theorem writerAssignLine {key w : Str} (ind : Nat)
    (hkey : keyOk key = true) {v : Value} (hw : wvProps false w v) :
    trim (remove_line_comments (List.replicate ind ' ' ++ key ++ toStr " = " ++ w)) =
      key ++ ' ' :: '=' :: ' ' :: w := by
  have hcl := lineClean_assign ind hkey hw
  rw [remove_line_comments_clean hcl.2.1]
  have hsh : List.replicate ind ' ' ++ key ++ toStr " = " ++ w =
      List.replicate ind ' ' ++ (key ++ ' ' :: '=' :: ' ' :: w) := by simp [toStr]
  rw [hsh, trim_replicate_space]
  simp only [keyOk, Bool.and_eq_true, decide_eq_true_eq] at hkey
  have hkne : key ≠ [] := hkey.1.1.1.1.1.1
  have hktr : trim key = key := hkey.1.1.1.1.1.2
  obtain ⟨hpv, hwne, hwtr, _⟩ := hw
  obtain ⟨a, ha⟩ : ∃ a, key.head? = some a := by
    cases key with
    | nil => exact absurd rfl hkne
    | cons x tl => exact ⟨x, rfl⟩
  obtain ⟨b, hb⟩ : ∃ b, w.getLast? = some b := by
    cases hwl : w.getLast? with
    | none => exact absurd (List.getLast?_eq_none_iff.mp hwl) hwne
    | some b => exact ⟨b, rfl⟩
  apply trim_eq_self_of_ends (a := a) (b := b)
  · rw [head?_append_left _ hkne, ha]
  · rw [getLast?_append_right (by simp), getLast?_cons_of_ne_nil (by simp),
      getLast?_cons_of_ne_nil (by simp [hwne]),
      getLast?_cons_of_ne_nil hwne, hb]
  · exact trim_stable_head hktr ha
  · exact trim_stable_getLast hwtr hb

/-- The trimmed, comment-stripped form of a writer header line. -/
theorem writerHeaderLine {name : Str} (ind d : Nat) (hd : 0 < d)
    (hname : nameOk name = true) :
    trim (remove_line_comments
        (List.replicate ind ' ' ++ List.replicate d '^' ++ ' ' :: name)) =
      List.replicate d '^' ++ ' ' :: name := by
  have hcl := lineClean_header ind d hname
  rw [remove_line_comments_clean hcl.2.1]
  have hsh : List.replicate ind ' ' ++ List.replicate d '^' ++ ' ' :: name =
      List.replicate ind ' ' ++ (List.replicate d '^' ++ ' ' :: name) := by simp
  rw [hsh, trim_replicate_space]
  simp only [nameOk, Bool.and_eq_true, decide_eq_true_eq] at hname
  have hnne : name ≠ [] := hname.1.1.1.1
  have hntr : trim name = name := hname.1.1.1.2
  obtain ⟨b, hb⟩ : ∃ b, name.getLast? = some b := by
    cases hwl : name.getLast? with
    | none => exact absurd (List.getLast?_eq_none_iff.mp hwl) hnne
    | some b => exact ⟨b, rfl⟩
  apply trim_eq_self_of_ends (a := '^') (b := b)
  · cases d with
    | zero => exact absurd hd (by simp)
    | succ dd => rw [List.replicate_succ]; rfl
  · rw [getLast?_append_right (by simp), getLast?_cons_of_ne_nil hnne, hb]
  · decide
  · exact trim_stable_getLast hntr hb

/-- Processing a writer assignment line: store the parsed value at the
current stack path. -/
theorem processLine_writer_assign {st : PState} {m ind : Nat} {key w : Str} {v : Value}
    (hkey : keyOk key = true) (hw : wvProps false w v) :
    processLine st m (List.replicate ind ' ' ++ key ++ toStr " = " ++ w) =
      .ok ⟨st.stack, insertAt st.root st.stack key v⟩ := by
  simp only [keyOk, Bool.and_eq_true, decide_eq_true_eq] at hkey
  rw [processLine_assign (writerAssignLine ind (by
      simp only [keyOk, Bool.and_eq_true, decide_eq_true_eq]
      exact hkey) hw)
    hkey.1.1.1.1.1.1
    (by
      intro c hc hc2
      exact hkey.1.1.2 (by rw [hc, hc2]))
    hkey.1.1.1.2 hkey.1.1.1.1.1.2 hw.2.2.1 hw.2.1]
  rw [hw.1]

/-- Processing a writer header line: resize the stack and append the name. -/
theorem processLine_writer_header {st : PState} {m ind d : Nat} {name : Str}
    (hd : 0 < d) (hname : nameOk name = true) :
    processLine st m (List.replicate ind ' ' ++ List.replicate d '^' ++ ' ' :: name) =
      .ok ⟨resizeStack (d - 1) st.stack ++ [name], st.root⟩ := by
  have hntr : trim name = name := by
    simp only [nameOk, Bool.and_eq_true, decide_eq_true_eq] at hname
    exact hname.1.1.1.2
  exact processLine_header (writerHeaderLine ind d hd hname) hd hntr

/-! ### The tree a section's lines rebuild -/

/-- Replay of the writer's lines for a section onto the node the parser
navigates to: the property assignments in order, then the child
subsections in order. -/
def buildS : Nat → Sect → Sect → Sect
  | 0, _, A => A
  | fuel + 1, .mk vals subs, A =>
    subs.foldl (fun B ns => B.updSub ns.1 (buildS fuel ns.2))
      (vals.foldl (fun a kv => a.setValue kv.1 kv.2) A)

theorem updPath_child_compose (t : Sect) (p : List Str) (F : Sect → Sect) (n : Str)
    (g : Sect → Sect) :
    updPath (updPath t p F) (p ++ [n]) g = updPath t p (fun A => (F A).updSub n g) := by
  rw [updPath_append, updPath_updPath]
  rfl

theorem foldl_graft_updPath (fuel : Nat) (t : Sect) (p : List Str) :
    ∀ (subs : List (Str × Sect)) (F : Sect → Sect),
      subs.foldl (fun B ns => updPath B (p ++ [ns.1]) (buildS fuel ns.2)) (updPath t p F) =
        updPath t p (fun A => subs.foldl (fun B ns => B.updSub ns.1 (buildS fuel ns.2)) (F A)) := by
  intro subs
  induction subs with
  | nil => intro F; rfl
  | cons ns rest ih =>
    intro F
    rw [List.foldl_cons, updPath_child_compose, ih]
    rfl

theorem foldl_insert_updPath (p : List Str) :
    ∀ (vals : List (Str × Value)) (t : Sect) (g : Sect → Sect),
      vals.foldl (fun B kv => insertAt B p kv.1 kv.2) (updPath t p g) =
        updPath t p (fun A => vals.foldl (fun a kv => a.setValue kv.1 kv.2) (g A)) := by
  intro vals
  induction vals with
  | nil => intro t g; rfl
  | cons kv rest ih =>
    intro t g
    rw [List.foldl_cons, insertAt_eq_updPath, updPath_updPath, ih]
    rfl

/-- Composing the value inserts and child grafts of one section. -/
theorem T2_eq (f : Nat) (t : Sect) (p : List Str) (vals : List (Str × Value))
    (subs : List (Str × Sect)) (hne : vals ≠ [] ∨ subs ≠ []) :
    subs.foldl (fun B ns => updPath B (p ++ [ns.1]) (buildS f ns.2))
      (vals.foldl (fun B kv => insertAt B p kv.1 kv.2) t) =
    updPath t p (buildS (f + 1) (.mk vals subs)) := by
  cases vals with
  | cons kv vrest =>
    rw [List.foldl_cons, insertAt_eq_updPath, foldl_insert_updPath, foldl_graft_updPath]
    rfl
  | nil =>
    cases subs with
    | nil => exact absurd rfl (hne.resolve_left (fun h => h rfl))
    | cons ns srest =>
      rw [List.foldl_nil, List.foldl_cons,
        show updPath t (p ++ [ns.1]) (buildS f ns.2) =
          updPath t p (fun A => A.updSub ns.1 (buildS f ns.2)) from by
            rw [updPath_append]
            rfl,
        foldl_graft_updPath]
      rfl

/-- Fresh folding of the child grafts under per-node uniqueness. -/
theorem buildSubs_fold (fuel : Nat) :
    ∀ {subs : List (Str × Sect)} {av : List (Str × Value)} {asubs : List (Str × Sect)},
    (subs.map Prod.fst).Nodup →
    (∀ nm ∈ subs.map Prod.fst, nm ∉ asubs.map Prod.fst) →
    (∀ ns ∈ subs, buildS fuel ns.2 Sect.empty = ns.2) →
    subs.foldl (fun B ns => B.updSub ns.1 (buildS fuel ns.2)) (Sect.mk av asubs) =
      Sect.mk av (asubs ++ subs) := by
  intro subs
  induction subs with
  | nil => intro av asubs _ _ _; simp
  | cons ns rest ih =>
    intro av asubs hnd hfresh hbuild
    obtain ⟨n, sub⟩ := ns
    rw [List.foldl_cons]
    rw [updSub_fresh _ (lookupA_of_not_mem (hfresh n
      (by simp only [List.map_cons, List.mem_cons]; left; trivial))), Sect.vals_mk,
      Sect.subs_mk]
    rw [hbuild (n, sub) (by simp)]
    rw [List.map_cons, List.nodup_cons] at hnd
    rw [ih hnd.2 (by
      intro n2 hn2
      simp only [List.map_append, List.mem_append, List.map_cons]
      push_neg
      constructor
      · exact hfresh n2 (by simp [hn2])
      · simp only [List.map_nil, List.mem_singleton]
        rintro rfl
        exact hnd.1 hn2)
      (fun x hx => hbuild x (by simp [hx]))]
    simp

/-- On a fresh node, the replay rebuilds exactly the written section. -/
theorem buildS_good : ∀ {fuel : Nat} {s : Sect}, goodS fuel s = true →
    buildS fuel s Sect.empty = s := by
  intro fuel
  induction fuel with
  | zero => intro s h; simp [goodS] at h
  | succ f ih =>
    intro s h
    obtain ⟨vals, subs⟩ := s
    simp only [goodS, Bool.and_eq_true, List.all_eq_true, decide_eq_true_eq] at h
    obtain ⟨⟨⟨hvals, hnodv⟩, hsubs⟩, hnods⟩ := h
    rw [buildS]
    rw [show (Sect.empty : Sect) = Sect.mk [] [] from rfl]
    rw [setValue_fold hnodv (fun k _ => by
      simp only [List.map_nil]
      exact List.not_mem_nil k)]
    rw [buildSubs_fold f hnods (fun nm _ => by
      simp only [List.map_nil]
      exact List.not_mem_nil nm) (fun ns hns => ih (by
      have := hsubs ns hns
      simp only [Bool.and_eq_true] at this
      exact this.2))]
    simp

/-! ### The main parse of the writer output -/

/-- Processing the property lines: each stores its parsed value at the
path held by the (unchanged) stack. -/
theorem MAIN_vals (fuel : Nat) :
    ∀ (vals : List (Str × Value)) (ind : Nat) (stack0 : List Str) (t : Sect) (m : Nat),
      vals.all (fun kv => keyOk kv.1 && goodV fuel kv.2) = true →
      processLines ⟨stack0, t⟩ m (valueLines fuel vals ind) =
        .ok ⟨stack0, vals.foldl (fun B kv => insertAt B stack0 kv.1 kv.2) t⟩ := by
  intro vals
  induction vals with
  | nil => intro ind stack0 t m _; rfl
  | cons kv rest ih =>
    intro ind stack0 t m hall
    simp only [List.all_cons, Bool.and_eq_true] at hall
    obtain ⟨⟨hkey, hgv⟩, hrest⟩ := hall
    rw [valueLines, List.map_cons, processLines]
    rw [processLine_writer_assign hkey (write_value_good hgv)]
    simp only
    rw [show (List.map (fun kv =>
        List.replicate ind ' ' ++ kv.1 ++ toStr " = " ++ write_value fuel kv.2) rest) =
      valueLines fuel rest ind from rfl]
    rw [ih ind stack0 _ (m + 1) hrest, List.foldl_cons]

/-- The conclusion of the section induction at a given writer fuel: the
lines of a non-root section, processed from any stack extending the
parent path, store exactly the replayed section and leave a stack
extending the section's path. -/
def SectConcl (fuel : Nat) : Prop :=
  ∀ (s : Sect) (q : List Str) (n : Str) (stack0 : List Str) (t : Sect) (m : Nat),
    goodS fuel s = true → nameOk n = true →
    stack0.take q.length = q →
    (s.vals ≠ [] ∨ s.subs ≠ []) →
    ∃ st' : List Str, st'.take (q.length + 1) = q ++ [n] ∧
      processLines ⟨stack0, t⟩ m (sectionLines fuel s (q ++ [n]) q.length) =
        .ok ⟨st', updPath t (q ++ [n]) (buildS fuel s)⟩

/-- Processing the subsection blocks of one section, given the section
induction hypothesis one fuel level down. -/
theorem MAIN_subs (fuel : Nat) (IH : SectConcl fuel) :
    ∀ (subs : List (Str × Sect)) (p stack0 : List Str) (t : Sect) (m : Nat) (first : Bool),
      subs.all (fun ns => nameOk ns.1 && (!ns.2.vals.isEmpty || !ns.2.subs.isEmpty) &&
        goodS fuel ns.2) = true →
      stack0.take p.length = p →
      ∃ st', st'.take p.length = p ∧
        processLines ⟨stack0, t⟩ m (subsLines fuel subs p p.length first) =
          .ok ⟨st', subs.foldl (fun B ns => updPath B (p ++ [ns.1]) (buildS fuel ns.2)) t⟩ := by
  intro subs
  induction subs with
  | nil =>
    intro p stack0 t m first _ hstk
    refine ⟨stack0, hstk, ?_⟩
    rw [subsLines]
    rfl
  | cons ns rest ih =>
    intro p stack0 t m first hall hstk
    obtain ⟨n, sub⟩ := ns
    simp only [List.all_cons, Bool.and_eq_true] at hall
    obtain ⟨⟨⟨hnm, hne⟩, hgs⟩, hrest⟩ := hall
    have hne' : sub.vals ≠ [] ∨ sub.subs ≠ [] := by
      rcases Bool.or_eq_true_iff.mp hne with h | h
      · left; intro hnil; rw [hnil] at h; simp at h
      · right; intro hnil; rw [hnil] at h; simp at h
    have key : ∀ m2 : Nat, ∃ st', st'.take p.length = p ∧
        processLines ⟨stack0, t⟩ m2 (sectionLines fuel sub (p ++ [n]) p.length ++
          subsLines fuel rest p p.length false) =
        .ok ⟨st', rest.foldl (fun B ns => updPath B (p ++ [ns.1]) (buildS fuel ns.2))
          (updPath t (p ++ [n]) (buildS fuel sub))⟩ := by
      intro m2
      obtain ⟨st1, hst1, hp1⟩ := IH sub p n stack0 t m2 hgs hnm hstk hne'
      have hstk1 : st1.take p.length = p := by
        have h2 := congrArg (List.take p.length) hst1
        rw [List.take_take, min_eq_left (Nat.le_succ _), List.take_left] at h2
        exact h2
      obtain ⟨st2, hst2, hp2⟩ := ih p st1 _
        (m2 + (sectionLines fuel sub (p ++ [n]) p.length).length) false hrest hstk1
      refine ⟨st2, hst2, ?_⟩
      rw [processLines_append, hp1]
      exact hp2
    rw [subsLines]
    cases first with
    | true =>
      rw [if_pos rfl, List.nil_append]
      obtain ⟨st', h1, h2⟩ := key m
      refine ⟨st', h1, ?_⟩
      rw [h2, List.foldl_cons]
    | false =>
      rw [if_neg (by simp)]
      obtain ⟨st', h1, h2⟩ := key (m + 1)
      refine ⟨st', h1, ?_⟩
      rw [List.append_assoc, List.singleton_append, processLines_cons,
        processLine_blank (show trim (remove_line_comments []) = [] from rfl)]
      simp only
      rw [h2, List.foldl_cons]

/-- The section induction: at every fuel, the writer's lines for a good
non-root section rebuild exactly that section at its path. -/
theorem MAIN_sect : ∀ fuel : Nat, SectConcl fuel := by
  intro fuel
  induction fuel with
  | zero =>
    intro s q n stack0 t m hg
    simp [goodS] at hg
  | succ f ihf =>
    intro s q n stack0 t m hg hnm hstk hne
    obtain ⟨vals, subs⟩ := s
    simp only [goodS, Bool.and_eq_true] at hg
    obtain ⟨⟨⟨hvals, hnodv⟩, hsubs⟩, hnods⟩ := hg
    have hle : q.length ≤ stack0.length := by
      have hlen := congrArg List.length hstk
      rw [List.length_take] at hlen
      omega
    rw [sectionLines]
    rw [if_neg (by simp)]
    rw [show ((q ++ [n]).getLastD []) = n from by simp]
    rw [show (if q ++ [n] = [] then 0 else 1) = 1 from by simp]
    rw [show (decide (q ++ [n] = [])) = false from by simp]
    rw [List.append_assoc, List.singleton_append, processLines_cons]
    rw [processLine_writer_header (Nat.succ_pos q.length) hnm]
    simp only
    rw [Nat.succ_sub_one, resizeStack_of_le hle, hstk]
    rw [processLines_append]
    rw [MAIN_vals (f + 1) vals _ (q ++ [n]) t _ hvals]
    simp only
    rw [show q.length + 1 = (q ++ [n]).length from by simp]
    obtain ⟨st2, hst2, hp2⟩ := MAIN_subs f ihf subs (q ++ [n]) (q ++ [n]) _ _ false hsubs
      (List.take_length _)
    rw [hp2]
    refine ⟨st2, hst2, ?_⟩
    rw [T2_eq f t (q ++ [n]) vals subs hne]

/-! ### Cleanliness of all writer lines -/

theorem subsLines_clean (fuel : Nat)
    (IH : ∀ (s : Sect) (path : List Str) (ind : Nat), goodS fuel s = true →
      (path = [] ∨ nameOk (path.getLastD []) = true) →
      ∀ l ∈ sectionLines fuel s path ind, lineClean l) :
    ∀ (subs : List (Str × Sect)) (path : List Str) (ind : Nat) (first : Bool),
      subs.all (fun ns => nameOk ns.1 && (!ns.2.vals.isEmpty || !ns.2.subs.isEmpty) &&
        goodS fuel ns.2) = true →
      ∀ l ∈ subsLines fuel subs path ind first, lineClean l := by
  intro subs
  induction subs with
  | nil =>
    intro path ind first _ l hl
    rw [subsLines] at hl
    simp at hl
  | cons ns rest ih =>
    intro path ind first hall l hl
    obtain ⟨n, sub⟩ := ns
    simp only [List.all_cons, Bool.and_eq_true] at hall
    obtain ⟨⟨⟨hnm, _⟩, hgs⟩, hrest⟩ := hall
    rw [subsLines] at hl
    simp only [List.mem_append] at hl
    rcases hl with (hl | hl) | hl
    · cases first with
      | true =>
        rw [if_pos rfl] at hl
        simp at hl
      | false =>
        rw [if_neg (by simp)] at hl
        simp only [List.mem_singleton] at hl
        subst hl
        exact lineClean_nil
    · exact IH sub (path ++ [n]) ind hgs (Or.inr (by simpa using hnm)) l hl
    · exact ih path ind false hrest l hl

/-- Every line the writer emits for a good section is clean. -/
theorem sectionLines_clean : ∀ (fuel : Nat) (s : Sect) (path : List Str) (ind : Nat),
    goodS fuel s = true →
    (path = [] ∨ nameOk (path.getLastD []) = true) →
    ∀ l ∈ sectionLines fuel s path ind, lineClean l := by
  intro fuel
  induction fuel with
  | zero =>
    intro s path ind hg
    simp [goodS] at hg
  | succ f ihf =>
    intro s path ind hg hpath l hl
    obtain ⟨vals, subs⟩ := s
    simp only [goodS, Bool.and_eq_true] at hg
    obtain ⟨⟨⟨hvals, _⟩, hsubs⟩, _⟩ := hg
    rw [sectionLines] at hl
    simp only [List.mem_append] at hl
    rcases hl with (hl | hl) | hl
    · by_cases hp : path = []
      · rw [if_pos hp] at hl
        simp at hl
      · rw [if_neg hp] at hl
        simp only [List.mem_singleton] at hl
        subst hl
        exact lineClean_header _ _ (hpath.resolve_left hp)
    · rw [valueLines] at hl
      simp only [List.mem_map] at hl
      obtain ⟨kv, hkv, rfl⟩ := hl
      rw [List.all_eq_true] at hvals
      have h := hvals kv hkv
      simp only [Bool.and_eq_true] at h
      exact lineClean_assign _ h.1 (write_value_good h.2)
    · exact subsLines_clean f (fun s2 p2 i2 => ihf s2 p2 i2) subs path _ _ hsubs l hl

/-! ### The round trip at the root -/

/-- Re-parsing the writer's output of a good document rebuilds exactly
that document. -/
theorem parse_write_string : ∀ (fuel : Nat) (d : Sect), goodS fuel d = true →
    parse_string (write_string fuel d) = .ok d := by
  intro fuel d hg
  cases fuel with
  | zero => simp [goodS] at hg
  | succ f =>
    obtain ⟨vals, subs⟩ := d
    have hclean := sectionLines_clean (f + 1) (.mk vals subs) [] 0 hg (Or.inl rfl)
    rw [show write_string (f + 1) (.mk vals subs) =
      write_section (f + 1) (.mk vals subs) [] 0 from rfl]
    rw [write_section_eq]
    unfold parse_string parse_string_on
    rw [remove_multiline_comments_clean (has2_joinNl (by decide) (by decide)
      (fun l hl => (hclean l hl).2.2))]
    rw [getlines_joinNl (fun l hl => (hclean l hl).1)]
    rw [show Sect.clearS Sect.empty = Sect.mk [] [] from rfl]
    rw [sectionLines]
    rw [if_pos rfl, List.nil_append]
    rw [show (0 + if ([] : List Str) = [] then 0 else 1 : Nat) = ([] : List Str).length
      from by simp]
    rw [show (decide (([] : List Str) = [])) = true from by simp]
    rw [processLines_append]
    rw [MAIN_vals (f + 1) vals _ [] (Sect.mk [] []) 1 (by
      simp only [goodS, Bool.and_eq_true] at hg
      exact hg.1.1.1)]
    simp only
    obtain ⟨st2, _, hp2⟩ := MAIN_subs f (MAIN_sect f) subs [] []
      (vals.foldl (fun B kv => insertAt B [] kv.1 kv.2) (Sect.mk [] []))
      (1 + (valueLines (f + 1) vals (([] : List Str).length * 4)).length)
      true
      (by
        simp only [goodS, Bool.and_eq_true] at hg
        exact hg.1.2)
      rfl
    rw [hp2]
    simp only
    rw [show subs.foldl (fun B ns => updPath B ([] ++ [ns.1]) (buildS f ns.2))
        (vals.foldl (fun B kv => insertAt B [] kv.1 kv.2) (Sect.mk [] [])) =
      buildS (f + 1) (Sect.mk vals subs) Sect.empty from rfl]
    rw [buildS_good hg]

/-! ### Support for the remaining claims -/

theorem breakOn2_eq {c1 c2 : Char} (hne : c1 ≠ c2) {pre tail : Str}
    (hpre : has2 c1 c2 pre = false) :
    breakOn [c1, c2] (pre ++ c1 :: c2 :: tail) = some (pre, tail) := by
  induction pre with
  | nil =>
    rw [List.nil_append, breakOn]
    rw [if_pos (by simp [List.isPrefixOf])]
    rfl
  | cons x pre' ih =>
    rw [List.cons_append, breakOn]
    rw [if_neg (by
      simp only [List.isPrefixOf, Bool.and_eq_true, beq_iff_eq, List.isPrefixOf_nil_left]
      rintro ⟨rfl, h2⟩
      cases pre' with
      | nil =>
        simp only [List.nil_append, List.isPrefixOf, Bool.and_eq_true, beq_iff_eq] at h2
        exact hne h2.1.symm
      | cons y pre2 =>
        simp only [List.cons_append, List.isPrefixOf, Bool.and_eq_true, beq_iff_eq] at h2
        rw [has2] at hpre
        simp only [Bool.or_eq_false_iff, Bool.and_eq_false_iff,
          decide_eq_false_iff_not] at hpre
        rcases hpre.1 with h | h
        · exact h (by trivial)
        · exact h h2.1.symm)]
    have hpre' : has2 c1 c2 pre' = false := by
      cases pre' with
      | nil => rfl
      | cons y pre2 =>
        rw [has2] at hpre
        simp only [Bool.or_eq_false_iff] at hpre
        exact hpre.2
    rw [ih hpre']
    rfl

theorem resizeStack_of_ge {n : Nat} {l : List Str} (h : l.length ≤ n) :
    resizeStack n l = l ++ List.replicate (n - l.length) [] := by
  unfold resizeStack
  rw [List.take_of_length_le h]

theorem mem_of_mem_trim {l : Str} {x : Char} (h : x ∈ trim l) : x ∈ l := by
  unfold trim at h
  rw [List.mem_reverse] at h
  have h2 := (List.dropWhile_sublist _).mem h
  rw [List.mem_reverse] at h2
  exact (List.dropWhile_sublist _).mem h2

/-- `Option`-threaded rendering of the property lines, with the
`as_string` coercion failure threaded exactly as `Parser::write_value`
invokes it. -/
def write_valuesO (fuel : Nat) (vals : List (Str × Value)) (ind : Nat) : Option Str :=
  (vals.mapM (fun kv => (write_valueO fuel kv.2).map
    (fun w => List.replicate ind ' ' ++ kv.1 ++ toStr " = " ++ w ++ ['\n']))).map
    List.flatten

/-- `Option`-threaded `Parser::write_section`: the section traversal
itself never coerces, so the only possible failures come from
`write_value`'s accessor calls, threaded through `write_valueO`. -/
def write_sectionO : Nat → Sect → List Str → Nat → Option Str
  | 0, _, _, _ => some []
  | fuel + 1, .mk vals subs, path, indent =>
    (write_valuesO (fuel + 1) vals ((indent + (if path = [] then 0 else 1)) * 4)).bind
      (fun vw =>
        (subs.mapM (fun ns =>
            write_sectionO fuel ns.2 (path ++ [ns.1])
              (indent + (if path = [] then 0 else 1)))).map
          (fun blocks =>
            (if path = [] then []
             else
               List.replicate (indent * 4) ' ' ++ List.replicate (indent + 1) '^' ++
                 ' ' :: path.getLastD [] ++ ['\n']) ++
            vw ++
            (if path = [] then List.intercalate ['\n'] blocks
             else (blocks.map (fun b => '\n' :: b)).flatten)))

/-- `Option`-threaded `Parser::write_string`. -/
def write_stringO (fuel : Nat) (d : Sect) : Option Str := write_sectionO fuel d [] 0

theorem mapM_eq_some_map {α β : Type} {f : α → Option β} {g : α → β}
    (h : ∀ x, f x = some (g x)) : ∀ l : List α, l.mapM f = some (l.map g) := by
  intro l
  induction l with
  | nil => rfl
  | cons x tl ih =>
    rw [List.mapM_cons, h x, ih]
    rfl

/-- The value writer dispatches on the variant before coercing, so the
threaded coercions always succeed. -/
theorem write_valueO_total : ∀ (fuel : Nat) (v : Value),
    write_valueO fuel v = some (write_value fuel v) := by
  intro fuel
  induction fuel with
  | zero => intro v; rfl
  | succ f ih =>
    intro v
    cases v with
    | str s => rfl
    | int n => rfl
    | real q => rfl
    | bool b => rfl
    | arr xs =>
      rw [write_valueO, write_value]
      rw [mapM_eq_some_map ih xs]
      rfl

theorem write_valuesO_total (fuel : Nat) (vals : List (Str × Value)) (ind : Nat) :
    write_valuesO fuel vals ind = some (write_values fuel vals ind) := by
  unfold write_valuesO write_values
  rw [mapM_eq_some_map (fun kv => by rw [write_valueO_total fuel kv.2]; rfl) vals]
  rfl

theorem write_sectionO_total : ∀ (fuel : Nat) (s : Sect) (path : List Str) (indent : Nat),
    write_sectionO fuel s path indent = some (write_section fuel s path indent) := by
  intro fuel
  induction fuel with
  | zero => intro s path indent; rfl
  | succ f ih =>
    intro s path indent
    obtain ⟨vals, subs⟩ := s
    rw [write_sectionO, write_section]
    rw [write_valuesO_total]
    rw [mapM_eq_some_map (fun ns => ih ns.2 (path ++ [ns.1])
      (indent + (if path = [] then 0 else 1))) subs]
    rfl

/-! ### The claims -/

set_option maxRecDepth 100000

/-- The document used by the round-trip witness. -/
def wDoc : Sect := .mk [(toStr "a", .int 5), (toStr "name", .str (toStr "hi"))]
  [(toStr "s1", .mk [(toStr "k", .int 12), (toStr "fl", .bool true)]
     [(toStr "deep", .mk [(toStr "arr", .arr [.int 1, .int 2, .str (toStr "x")])] [])]),
   (toStr "s2", .mk [(toStr "z", .int (-3))] [])]

/-- C1 (amended round-trip): parsing the writer's output rebuilds exactly
the written tree for every document satisfying `goodS`: enough fuel for
the nesting depth, every key and section name non-empty, trim-stable and
free of line breaks, `=` (keys), leading `^` (keys) and comment markers,
Text values quote-, newline- and comment-marker-free (array Text
elements also comma-free), array elements scalar, integers within the
32-bit range, reals exactly representable at six decimals, keys and
child names unique per node, and every child section non-empty.  The
claim's own hypothesis (Text values without quotes or comment markers)
is not sufficient: `C1_round_trip_cex` gives a document satisfying it
whose round trip loses a section. -/
theorem C1_round_trip (fuel : Nat) (d : Sect) (h : goodS fuel d = true) :
    parse_string (write_string fuel d) = .ok d :=
  parse_write_string fuel d h

theorem C1_round_trip_witness :
    goodS 4 wDoc = true ∧ parse_string (write_string 4 wDoc) = .ok wDoc :=
  ⟨by decide, C1_round_trip 4 wDoc (by decide)⟩

/-- C1 counterexample: a document with one empty subsection and no Text
values at all satisfies the claim's hypothesis, its serialization is
just the header line `^ s`, and re-parsing that yields a root with no
sections: the tree is not reproduced. -/
theorem C1_round_trip_cex :
    parse_string (write_string 2 (Sect.mk [] [(toStr "s", Sect.mk [] [])])) =
        .ok (Sect.mk [] []) ∧
      Sect.mk [] [] ≠ Sect.mk [] [(toStr "s", Sect.mk [] [])] :=
  ⟨rfl, by simp⟩

/-- C2 (amended array parsing): the bracket branch of `parse_value`
splits the inner content of `[` … `]` with `std::getline(ss, item, ',')`,
i.e. at EVERY comma — nested brackets and quotes do not protect a comma —
and recursively parses each non-empty trimmed segment. -/
theorem C2_array_split {t : Str} (hh : t.head? = some '[') (hl : t.getLast? = some ']')
    (htr : trim t = t) :
    parse_value t =
      .arr ((((getlinesBy ',' ((t.drop 1).dropLast)).map trim).filter (· ≠ [])).map
        parse_value) :=
  parse_value_bracket hh hl htr

theorem C2_array_split_witness :
    trim (toStr "[[1, 2], 3]") = toStr "[[1, 2], 3]" ∧
    parse_value (toStr "[[1, 2], 3]") =
      .arr (((((getlinesBy ',' (((toStr "[[1, 2], 3]").drop 1).dropLast)).map trim).filter
        (· ≠ [])).map) parse_value) :=
  ⟨rfl, C2_array_split rfl rfl rfl⟩

/-- C2 counterexample: `[[1, 2], 3]` does not parse to the nested array
`[[1, 2], 3]`; the comma inside the inner brackets also splits, giving
the three elements `"[1"`, `2`, `3` (`"2]"` parses as `2` because
`std::stoi` ignores trailing characters). -/
theorem C2_array_split_cex :
    parse_value (toStr "[[1, 2], 3]") = .arr [.str (toStr "[1"), .int 2, .int 3] ∧
      Value.arr [.str (toStr "[1"), .int 2, .int 3] ≠
        .arr [.arr [.int 1, .int 2], .int 3] :=
  ⟨rfl, by simp⟩

/-- C3 (amended depth handling): a header with `d` carets resizes the
stack to `d − 1` entries and appends the name; when the stack is
shorter than `d − 1`, `std::vector::resize` PADS it with empty strings,
so a skipped depth level inserts intermediate sections named `""` —
the new section is not nested directly under the previous one. -/
theorem C3_depth_skip {st : PState} {m d : Nat} {name : Str} (hd : 0 < d)
    (hname : nameOk name = true) (hskip : st.stack.length ≤ d - 1) :
    processLine st m (List.replicate d '^' ++ ' ' :: name) =
      .ok ⟨st.stack ++ List.replicate (d - 1 - st.stack.length) [] ++ [name], st.root⟩ := by
  have h := @processLine_writer_header st m 0 d name hd hname
  rw [show List.replicate 0 ' ' ++ List.replicate d '^' ++ ' ' :: name =
    List.replicate d '^' ++ ' ' :: name from by simp] at h
  rw [resizeStack_of_ge hskip] at h
  exact h

theorem C3_depth_skip_witness :
    (0 : Nat) < 3 ∧ nameOk (toStr "c") = true ∧
      (PState.mk [toStr "a"] (Sect.mk [] [])).stack.length ≤ 3 - 1 ∧
      processLine ⟨[toStr "a"], Sect.mk [] []⟩ 2 (List.replicate 3 '^' ++ ' ' :: toStr "c") =
        .ok ⟨[toStr "a"] ++ List.replicate (3 - 1 - 1) [] ++ [toStr "c"], Sect.mk [] []⟩ :=
  ⟨by decide, by decide, by decide, C3_depth_skip (by decide) (by decide) (by decide)⟩

/-- C3 counterexample: a depth-3 header right after a depth-1 header
nests the named section under an intermediate section named `""`, not
directly under the depth-1 section. -/
theorem C3_depth_skip_cex :
    parse_string (toStr "^ a\n^^^ c\nx = 1") =
        .ok (Sect.mk [] [(toStr "a", Sect.mk []
          [(toStr "", Sect.mk [] [(toStr "c", Sect.mk [(toStr "x", .int 1)] [])])])]) ∧
      Sect.mk [] [(toStr "a", Sect.mk []
          [(toStr "", Sect.mk [] [(toStr "c", Sect.mk [(toStr "x", .int 1)] [])])])] ≠
        Sect.mk [] [(toStr "a", Sect.mk [] [(toStr "c", Sect.mk [(toStr "x", .int 1)] [])])] :=
  ⟨rfl, by simp⟩

/-- C4 (amended boolean coercion): on a Text value `as_bool` never
raises: it returns `true` exactly when the lower-cased text is `true`,
`yes`, `on` or `1`, and `false` for EVERY other text (including text
like `banana` matching neither keyword set). -/
theorem C4_as_bool_text (s : Str) :
    ∃ b : Bool, as_bool (.str s) = some b ∧
      (b = true ↔ (lowerStr s = toStr "true" ∨ lowerStr s = toStr "yes" ∨
        lowerStr s = toStr "on" ∨ lowerStr s = toStr "1")) :=
  ⟨_, rfl, ⟨fun h => of_decide_eq_true h, fun h => decide_eq_true h⟩⟩

/-- C4 counterexample: `banana` matches neither keyword set, yet
`as_bool` returns `false` instead of raising a type error. -/
theorem C4_as_bool_text_cex : as_bool (.str (toStr "banana")) = some false := rfl

/-- C5 (amended numeric inference): `std::stoi` reads the longest digit
prefix and IGNORES trailing characters, so a literal made of a non-empty
digit run followed by non-digit text (no `.`, not quoted, bracketed or a
keyword — guaranteed here by the leading digit) parses as the Integer
value of the digit prefix, not as Text. -/
theorem C5_numeric_prefix {ds rest : Str}
    (hds : ds ≠ []) (hdig : ∀ x ∈ ds, isDig x = true)
    (hrest : ∀ c, rest.head? = some c → isDig c = false)
    (htr : trim (ds ++ rest) = ds ++ rest)
    (hdot : '.' ∉ ds ++ rest)
    (hr1 : -(2 ^ 31) ≤ (digitsVal ds : Int)) (hr2 : (digitsVal ds : Int) < 2 ^ 31) :
    parse_value (ds ++ rest) = .int (digitsVal ds) := by
  cases ds with
  | nil => exact absurd rfl hds
  | cons d0 ds' =>
    have hc : ((d0 :: ds') ++ rest).head? = some d0 := rfl
    have hd0 : isDig d0 = true := hdig d0 (by simp)
    have hnum : d0 = '-' ∨ isDig d0 = true := Or.inr hd0
    rw [parse_value, parse_valueF]
    simp only [htr]
    rw [if_neg (by
      rintro (⟨ha, -⟩ | ⟨ha, -⟩)
      · exact head_ne_char hc hnum '\'' (by decide) (by decide) ha
      · exact head_ne_char hc hnum '"' (by decide) (by decide) ha)]
    rw [if_neg (by
      rintro ⟨ha, -⟩
      exact head_ne_char hc hnum '[' (by decide) (by decide) ha)]
    rw [if_neg (by
      rintro (hk | hk | hk)
      · exact numstr_not_keyword hc hnum (w := toStr "true") rfl (by decide) (by decide)
          (by decide) hk
      · exact numstr_not_keyword hc hnum (w := toStr "yes") rfl (by decide) (by decide)
          (by decide) hk
      · exact numstr_not_keyword hc hnum (w := toStr "on") rfl (by decide) (by decide)
          (by decide) hk)]
    rw [if_neg (by
      rintro (hk | hk | hk)
      · exact numstr_not_keyword hc hnum (w := toStr "false") rfl (by decide) (by decide)
          (by decide) hk
      · exact numstr_not_keyword hc hnum (w := toStr "no") rfl (by decide) (by decide)
          (by decide) hk
      · exact numstr_not_keyword hc hnum (w := toStr "off") rfl (by decide) (by decide)
          (by decide) hk)]
    rw [if_neg hdot]
    have hstoi : stoiM ((d0 :: ds') ++ rest) = some ((digitsVal (d0 :: ds') : Int)) := by
      unfold stoiM
      rw [dropWhile_eq_self_of_head (fun c hcc => by
        rw [hc] at hcc
        injection hcc with hcc
        subst hcc
        exact isCppSpace_false_of_isDig hd0)]
      rw [signSplit_no_sign (fun c hcc => by
        rw [hc] at hcc
        injection hcc with hcc
        subst hcc
        exact hd0)]
      simp only
      rw [takeWhile_append_stop hdig hrest]
      rw [if_neg (by simp)]
      simp only [Bool.false_eq_true, if_false, one_mul]
      rw [if_pos ⟨hr1, hr2⟩]
    rw [hstoi]

theorem C5_numeric_prefix_witness :
    toStr "12" ≠ [] ∧ (∀ x ∈ toStr "12", isDig x = true) ∧
      trim (toStr "12" ++ toStr "abc") = toStr "12" ++ toStr "abc" ∧
      '.' ∉ toStr "12" ++ toStr "abc" ∧
      parse_value (toStr "12" ++ toStr "abc") = .int (digitsVal (toStr "12")) :=
  ⟨by decide, by decide, by decide, by decide,
    C5_numeric_prefix (by decide) (by decide)
      (fun c hcc => by
        rw [show (toStr "abc").head? = some 'a' from rfl] at hcc
        injection hcc with hcc
        subst hcc
        decide)
      (by decide) (by decide) (by decide) (by decide)⟩

/-- C5 counterexample: the malformed literal `12abc` does not fall back
to Text: it parses as `Integer 12`. -/
theorem C5_numeric_prefix_cex :
    parse_value (toStr "12abc") = .int 12 ∧ Value.int 12 ≠ .str (toStr "12abc") :=
  ⟨rfl, by simp⟩

/-- C6 (amended error reporting): for a one-line input (so that comment
removal cannot shift numbering) that is non-blank after trimming, not a
header, and has no `=`, parsing fails with `invalidLine` carrying line
number 1 and the trimmed line text.  The line number is the 1-based
index within the text AFTER block-comment removal, which differs from
the original source when a multi-line block comment precedes
(`C6_error_line_cex`). -/
theorem C6_error_line {l : Str} (hnl : '\n' ∉ l) (hml : has2 '/' '*' l = false)
    (hsl : has2 '/' '/' l = false) (hne : trim l ≠ [])
    (hcar : (trim l).head? ≠ some '^') (heq : '=' ∉ l) :
    parse_string l = .error (.invalidLine 1 (trim l)) := by
  have hlnil : l ≠ [] := by
    intro h
    rw [h] at hne
    exact hne rfl
  have hpl : processLine ⟨[], Sect.mk [] []⟩ 1 l = .error (.invalidLine 1 (trim l)) := by
    unfold processLine
    simp only [remove_line_comments_clean hsl]
    rw [if_neg hne]
    rw [count_carets_eq_zero (fun c hcc => by
      intro hc2
      rw [hc2] at hcc
      exact hcar hcc)]
    simp only [Nat.lt_irrefl, if_false]
    rw [breakOn_single_none (fun hm => heq (mem_of_mem_trim hm))]
  unfold parse_string parse_string_on
  rw [remove_multiline_comments_clean hml]
  rw [show getlinesBy '\n' l = [l] from by
    unfold getlinesBy
    rw [if_neg hlnil, splitCh_of_not_mem hnl]
    rw [if_neg (by simp [hlnil])]]
  rw [processLines_cons, show Sect.clearS Sect.empty = Sect.mk [] [] from rfl, hpl]

theorem C6_error_line_witness :
    trim (toStr "no_equals_sign_here") ≠ [] ∧ '=' ∉ toStr "no_equals_sign_here" ∧
      parse_string (toStr "no_equals_sign_here") =
        .error (.invalidLine 1 (trim (toStr "no_equals_sign_here"))) :=
  ⟨by decide, by decide,
    C6_error_line (by decide) (by decide) (by decide) (by decide) (by decide) (by decide)⟩

/-- C6 counterexample: with a block comment spanning the first two
source lines, the offending line `x` is the THIRD line of the original
source (second conjunct) but the error reports line 2, the index after
block-comment removal. -/
theorem C6_error_line_cex :
    parse_string (toStr "/*\n*/\nx") = .error (.invalidLine 2 (toStr "x")) ∧
      getlinesBy '\n' (toStr "/*\n*/\nx") = [toStr "/*", toStr "*/", toStr "x"] :=
  ⟨rfl, rfl⟩

/-- C7 (confirmed): an unterminated block-comment marker truncates the
input at the marker silently — everything from `/​*` to the end is
discarded, no error is raised, and the text before the marker parses
exactly as it would alone. -/
theorem C7_unterminated_comment {pre tail : Str} (hpre : has2 '/' '*' pre = false)
    (htail : has2 '*' '/' tail = false) :
    remove_multiline_comments (pre ++ '/' :: '*' :: tail) = pre ∧
      parse_string (pre ++ '/' :: '*' :: tail) = parse_string pre := by
  have h1 : remove_multiline_comments (pre ++ '/' :: '*' :: tail) = pre := by
    unfold remove_multiline_comments removeMLF
    rw [show toStr "/*" = ['/', '*'] from rfl]
    rw [breakOn2_eq (by decide) hpre]
    simp only
    rw [show toStr "*/" = ['*', '/'] from rfl]
    rw [breakOn_nil_of_has2_false htail]
  refine ⟨h1, ?_⟩
  unfold parse_string parse_string_on
  rw [h1, remove_multiline_comments_clean hpre]

theorem C7_unterminated_comment_witness :
    has2 '/' '*' (toStr "a = 1\n") = false ∧ has2 '*' '/' (toStr " junk") = false ∧
      remove_multiline_comments (toStr "a = 1\n" ++ '/' :: '*' :: toStr " junk") =
        toStr "a = 1\n" ∧
      parse_string (toStr "a = 1\n" ++ '/' :: '*' :: toStr " junk") =
        parse_string (toStr "a = 1\n") :=
  ⟨by decide, by decide, (C7_unterminated_comment (by decide) (by decide)).1,
    (C7_unterminated_comment (by decide) (by decide)).2⟩

/-- C8 (confirmed): serialization is total — the `Option`-threaded
writer, which models every `as_string`/`as_bool` accessor call the C++
writer makes, always returns the plain writer's output; in particular
the array-to-string error branch of `as_string` is unreachable from the
writer because `write_value` dispatches on the variant first. -/
theorem C8_serialize_total (fuel : Nat) (d : Sect) :
    write_stringO fuel d = some (write_string fuel d) :=
  write_sectionO_total fuel d [] 0

/-- C9 (confirmed): `parse_string` clears the previous tree first, so
parsing on an instance holding any prior tree gives exactly the result
of parsing on a fresh instance. -/
theorem C9_reparse_replaces (prev : Sect) (content : Str) :
    parse_string_on prev content = parse_string content := rfl

/-- C10 (refuted — code bug): an assignment line whose value text is
empty after the `=` reaches `parse_value` with an empty trimmed
argument, on which the C++ `front()` call is an out-of-bounds access on
an empty `std::string`; the model marks this configuration as
`ubEmptyValue`, reached by the input `key =`. -/
theorem C10_empty_value_ub :
    parse_string (toStr "key =") = .error (.ubEmptyValue 1 (toStr "key =")) := rfl

end Yini
